import Mathlib

/-!
Verification of the Git-Wizard code-analysis and diff subsystem.

Python strings are modelled as `List Char`; Python line sequences as
`List (List Char)`.  File systems are association lists from file names to
either file content (`Except.ok`) or a read error message (`Except.error`),
modelling `open()` that raises.  All definitions follow
`src/features/analysis.py`, `src/ui/console.py` and
`src/features/visualization.py`, except for the sequence matcher and the
regular-expression matcher which are modelled from the spec (the source uses
the external `difflib` / `re` libraries, which are not part of this
repository).
-/

namespace GitWizard

/-- Python string, modelled as a list of characters. -/
abbrev PyStr := List Char

/-- Whitespace characters recognised by Python's `str.strip()` and `\s`
(ASCII subset: space, tab, newline, carriage return, vertical tab, form feed). -/
def isPyWs (c : Char) : Bool :=
  c = ' ' || c = '\t' || c = '\n' || c = '\r' || c = '\x0b' || c = '\x0c'

/-- Python `str.strip()`: drop leading and trailing whitespace. -/
def pyStrip (s : PyStr) : PyStr :=
  ((s.dropWhile isPyWs).reverse.dropWhile isPyWs).reverse

/-- Python `content.split('\n')`: split on every newline; never empty,
`"".split('\n') == ['']`. -/
def splitNl (s : PyStr) : List PyStr :=
  s.foldr
    (fun c acc =>
      match acc with
      | [] => [[c]]
      | cur :: rest => if c = '\n' then [] :: cur :: rest else (c :: cur) :: rest)
    [[]]

/-- Python `'\n'.join(parts)`. -/
def joinNl (parts : List PyStr) : PyStr :=
  List.intercalate ['\n'] parts

/-- Python slice `l[start:stop]` for a natural `start` and an arbitrary
(possibly negative) integer `stop`; a negative `stop` counts from the end of
the list. -/
def pySliceTo {α : Type} (l : List α) (start : Nat) (stop : Int) : List α :=
  let n : Int := l.length
  let stopC : Int := if stop < 0 then max (stop + n) 0 else min stop n
  (l.drop start).take (stopC.toNat - start)

/-- Split at the first occurrence of `sep`: returns the part before and the
part after, or `none` when `sep` does not occur.  Mirrors the first step of
Python's `str.split(sep)`. -/
def splitFirst (sep : PyStr) : PyStr → Option (PyStr × PyStr)
  | [] => if sep.isEmpty then some ([], []) else none
  | c :: t =>
    if sep.isPrefixOf (c :: t) then some ([], (c :: t).drop sep.length)
    else match splitFirst sep t with
      | none => none
      | some (b, a) => some (c :: b, a)

/-- Python's substring test `pat in s`. -/
def pyIn (pat s : PyStr) : Bool :=
  (splitFirst pat s).isSome

/-!
The text differ.  `ConsoleUI.print_diff` and `Visualizer.show_diff` both call
`difflib.SequenceMatcher(None, old_lines, new_lines).get_opcodes()` and
flatten the opcodes into side-by-side rows.  `difflib` is an external library,
not part of this repository, so the matcher below is modelled from the spec:
find the maximal matching block (longest match, preferring the earliest one in
both sequences), recurse on both sides, then walk the blocks in order filling
each gap with a replace/delete/insert opcode.  The flattening of opcodes into
rows is translated from the source (`console.py` lines 76-88).
-/

/-- One column step of the longest-match scan at row `i`: the chain ending at
`(i, j)` extends the chain ending at `(i - 1, j - 1)` (read from the previous
row's `j2len`), and a strictly longer chain replaces the best match found so
far (so the earliest longest match is kept). -/
def flmStep (j2len : Nat → Nat) (i : Nat)
    (st : (Nat → Nat) × (Nat × Nat × Nat)) (j : Nat) : (Nat → Nat) × (Nat × Nat × Nat) :=
  let k := if j = 0 then 1 else j2len (j - 1) + 1
  ((fun j' => if j' = j then k else st.1 j'),
   if st.2.2.2 < k then (i + 1 - k, j + 1 - k, k) else st.2)

/-- One row of the longest-match scan: process element `a[i]` against every
column `j` of `b[blo:bhi]` holding the same line, in ascending order. -/
def flmRow (b : List PyStr) (blo bhi : Nat) (x : PyStr) (i : Nat)
    (j2len : Nat → Nat) (best : Nat × Nat × Nat) : (Nat → Nat) × (Nat × Nat × Nat) :=
  ((List.range bhi).filter (fun j => decide (blo ≤ j ∧ b.getD j [] = x))).foldl
    (flmStep j2len i) ((fun _ => 0), best)

/-- Modelled from the spec: the longest matching block of `a[alo:ahi]` and
`b[blo:bhi]`, as `(i, j, size)`, preferring the earliest match in both
sequences among equally long ones; `(alo, blo, 0)` when there is no match. -/
def find_longest_match (a b : List PyStr) (alo ahi blo bhi : Nat) : Nat × Nat × Nat :=
  ((List.range' alo (ahi - alo)).foldl
    (fun st i => flmRow b blo bhi (a.getD i []) i st.1 st.2)
    ((fun _ => 0), (alo, blo, 0))).2

/-- Recursively collect matching blocks in document order: the longest match
splits the window, and both sides are processed recursively.  `fuel` only
bounds the recursion depth; every call strictly shrinks the window, so
`(ahi - alo) + (bhi - blo) + 1` is always enough. -/
def mbF (a b : List PyStr) : Nat → Nat → Nat → Nat → Nat → List (Nat × Nat × Nat)
  | 0, _, _, _, _ => []
  | fuel + 1, alo, ahi, blo, bhi =>
    let m := find_longest_match a b alo ahi blo bhi
    if m.2.2 = 0 then []
    else
      mbF a b fuel alo m.1 blo m.2.1 ++ m ::
        mbF a b fuel (m.1 + m.2.2) ahi (m.2.1 + m.2.2) bhi

/-- Modelled from the spec: all maximal matching blocks of `a` and `b`, in
document order (without the `(len a, len b, 0)` terminator, which
`get_opcodes` appends before walking). -/
def get_matching_blocks (a b : List PyStr) : List (Nat × Nat × Nat) :=
  mbF a b (a.length + b.length + 1) 0 a.length 0 b.length

/-- Opcode tag of one aligned span. -/
inductive Tag where
  | equal | delete | insert | replace
deriving DecidableEq, Repr

/-- One opcode: a tag with the half-open ranges `[i1, i2)` into the old
sequence and `[j1, j2)` into the new sequence. -/
structure Op where
  tag : Tag
  i1 : Nat
  i2 : Nat
  j1 : Nat
  j2 : Nat
deriving DecidableEq, Repr

/-- Walk the matching blocks from position `(i, j)`, emitting a gap opcode
before each block (replace when both sides advance, else delete or insert)
and an equal opcode for each non-empty block. -/
def opcodesWalk : Nat → Nat → List (Nat × Nat × Nat) → List Op
  | _, _, [] => []
  | i, j, (ai, bj, sz) :: rest =>
    (if i < ai ∧ j < bj then [⟨Tag.replace, i, ai, j, bj⟩]
     else if i < ai then [⟨Tag.delete, i, ai, j, bj⟩]
     else if j < bj then [⟨Tag.insert, i, ai, j, bj⟩]
     else [])
    ++ (if 1 ≤ sz then [⟨Tag.equal, ai, ai + sz, bj, bj + sz⟩] else [])
    ++ opcodesWalk (ai + sz) (bj + sz) rest

/-- Modelled from the spec: the opcodes aligning `a` with `b`
(`SequenceMatcher.get_opcodes`). -/
def get_opcodes (a b : List PyStr) : List Op :=
  opcodesWalk 0 0 (get_matching_blocks a b ++ [(a.length, b.length, 0)])

/-- Flattening of one opcode into side-by-side rows, translated from
`ConsoleUI.print_diff` (the same loop appears in `Visualizer.show_diff`):
equal pairs `old[i]` with `new[j1 + (i - i1)]`; delete pairs `old[i]` with an
empty new side; insert pairs an empty old side with `new[j]`; replace pairs
`old[i]` with `new[j]` for `(i, j)` in `zip(range(i1, i2), range(j1, j2))`.
The empty cell (`""` in the source's `table.add_row`) is modelled as `none`. -/
def opRows (a b : List PyStr) (op : Op) : List (Option PyStr × Option PyStr) :=
  match op.tag with
  | Tag.equal =>
    (List.range' op.i1 (op.i2 - op.i1)).map
      (fun i => (some (a.getD i []), some (b.getD (op.j1 + (i - op.i1)) [])))
  | Tag.delete =>
    (List.range' op.i1 (op.i2 - op.i1)).map (fun i => (some (a.getD i []), none))
  | Tag.insert =>
    (List.range' op.j1 (op.j2 - op.j1)).map (fun j => (none, some (b.getD j [])))
  | Tag.replace =>
    ((List.range' op.i1 (op.i2 - op.i1)).zip (List.range' op.j1 (op.j2 - op.j1))).map
      (fun p => (some (a.getD p.1 []), some (b.getD p.2 [])))

/-- The side-by-side diff rows of two line sequences: the flattening of
`get_opcodes a b`. -/
def diffRows (a b : List PyStr) : List (Option PyStr × Option PyStr) :=
  (get_opcodes a b).flatMap (opRows a b)

/-- `ConsoleUI.print_diff`: split both texts on newlines and flatten the
opcodes into rows. -/
def print_diff (old_text new_text : PyStr) : List (Option PyStr × Option PyStr) :=
  diffRows (splitNl old_text) (splitNl new_text)

/-- The opcode list `ops` tiles both index spaces exactly: starting from
`(i, j)`, each opcode begins where the previous one ended and the last one
ends at `(endA, endB)` — the "no gaps, no overlaps" partition property. -/
def opsCover : Nat → Nat → List Op → Nat → Nat → Bool
  | i, j, [], endA, endB => decide (i = endA) && decide (j = endB)
  | i, j, op :: rest, endA, endB =>
    decide (op.i1 = i) && decide (op.j1 = j) &&
    decide (i ≤ op.i2) && decide (j ≤ op.j2) &&
    opsCover op.i2 op.j2 rest endA endB

/-- Every replace opcode in `ops` has old and new ranges of equal length. -/
def replaceBalanced (ops : List Op) : Bool :=
  ops.all (fun op => !(op.tag == Tag.replace) || decide (op.i2 - op.i1 = op.j2 - op.j1))

/-!
Structural invariants used to state the partition property of the differ.
-/

/-- `BlocksOK endA endB loA loB blocks`: the matching blocks are non-empty, in
strictly increasing document order, start at or after `(loA, loB)` and end at
or before `(endA, endB)`. -/
def BlocksOK (endA endB : Nat) : Nat → Nat → List (Nat × Nat × Nat) → Prop
  | _, _, [] => True
  | loA, loB, (i, j, k) :: rest =>
    loA ≤ i ∧ loB ≤ j ∧ 1 ≤ k ∧ i + k ≤ endA ∧ j + k ≤ endB ∧
      BlocksOK endA endB (i + k) (j + k) rest

/-- Invariant of the chain-length table `f` before processing row `i` of the
window `a[alo:ahi] × b[blo:bhi]`: every recorded chain ending at column `j`
fits inside the window on both axes. -/
def JInv (alo blo : Nat) (f : Nat → Nat) (i : Nat) : Prop :=
  ∀ j, f j = 0 ∨ (blo ≤ j ∧ f j + blo ≤ j + 1 ∧ f j + alo ≤ i)

/-- A match `(i, j, k)` lies inside the window `a[alo:ahi] × b[blo:bhi]`. -/
def ValidM (alo ahi blo bhi : Nat) (m : Nat × Nat × Nat) : Prop :=
  alo ≤ m.1 ∧ m.1 + m.2.2 ≤ ahi ∧ blo ≤ m.2.1 ∧ m.2.1 + m.2.2 ≤ bhi

/-!
File system model and the batch-scan skeleton shared by the analyzers
(`CodeAnalyzer` in `src/features/analysis.py`).
-/

/-- A file system: file names mapped to content (`ok`) or to the message of
the exception that reading them raises (`error`). -/
abbrev FileSys := List (String × Except String PyStr)

/-- Python `open(file).read()`: the file's content, or the read error. -/
def readFile (fs : FileSys) (p : String) : Except String PyStr :=
  match fs.find? (fun e => e.1 == p) with
  | some e => e.2
  | none => Except.error "No such file or directory"

/-- `CodeAnalyzer._get_code_files`: keep only files ending in one of the
fixed code extensions. -/
def hasCodeExt (f : String) : Bool :=
  [".py", ".js", ".java", ".cpp", ".c", ".h"].any (fun e => e.toList.isSuffixOf f.toList)

/-- The tracked files filtered by the extension allow-list. -/
def codeFiles (tracked : List String) : List String :=
  tracked.filter hasCodeExt

/-- `files = [file_path] if file_path else self._get_code_files()`: note that
Python truthiness sends the empty string to the default branch. -/
def filesFor (tracked : List String) (file_path : Option String) : List String :=
  match file_path with
  | some p => if p = "" then codeFiles tracked else [p]
  | none => codeFiles tracked

/-- The per-file diagnostic printed by the analyzers:
`print(f"Ошибка при анализе файла {file}: {str(e)}")`. -/
def analyzeErrMsg (f e : String) : String :=
  "Ошибка при анализе файла " ++ f ++ ": " ++ e

/-- The shared batch loop of the analyzers: for each file, read it and append
the per-file findings to the results; a read error is caught, printed (the
second component collects the printed diagnostics) and the scan continues.
The caller receives only the first component. -/
def runBatch {ρ : Type} (step : String → PyStr → List ρ) (fs : FileSys)
    (files : List String) : List ρ × List String :=
  files.foldl
    (fun acc f =>
      match readFile fs f with
      | Except.ok c => (acc.1 ++ step f c, acc.2)
      | Except.error e => (acc.1, acc.2 ++ [analyzeErrMsg f e]))
    ([], [])

/-!
Complexity analyzer (`CodeAnalyzer.analyze_complexity`).
-/

/-- One row of `analyze_complexity`. -/
structure ComplexityRec where
  file : String
  code_lines : Nat
  functions : Nat
  complexity : Nat
deriving DecidableEq, Repr

/-- Per-file work of `analyze_complexity`: count non-blank lines whose
stripped text does not start with a comment prefix, lines whose stripped text
starts with a function keyword, and lines containing a branching keyword. -/
def complexityStep (f : String) (c : PyStr) : List ComplexityRec :=
  let lines := splitNl c
  [⟨f,
    (lines.filter (fun l =>
      !(pyStrip l).isEmpty &&
      !(["#", "//", "/*", "*", "*/"].any (fun p => p.toList.isPrefixOf (pyStrip l))))).length,
    (lines.filter (fun l =>
      ["def ", "function ", "public ", "private ", "protected "].any
        (fun kw => kw.toList.isPrefixOf (pyStrip l)))).length,
    (lines.filter (fun l =>
      ["if ", "for ", "while ", "switch ", "case ", "catch ", "&&", "||"].any
        (fun kw => pyIn kw.toList l))).length⟩]

/-- `CodeAnalyzer.analyze_complexity`: per-file complexity metrics over the
explicit file or the tracked code files. -/
def analyze_complexity (fs : FileSys) (tracked : List String)
    (file_path : Option String) : List ComplexityRec × List String :=
  runBatch complexityStep fs (filesFor tracked file_path)

/-!
Performance analyzer (`CodeAnalyzer.analyze_performance`).
-/

/-- `line.split('def ')[1].split('(')[0].strip()`: the text between the first
`def ` and the next `(` (bounded by the next `def ` occurrence, as Python's
`split` chunks are), stripped. -/
def defName (line : PyStr) : PyStr :=
  match splitFirst ("def ".toList) line with
  | none => []
  | some pr =>
    pyStrip ((match splitFirst ("def ".toList) pr.2 with
      | none => pr.2
      | some pr2 => pr2.1).takeWhile (fun c => c != '('))

/-- One row of `analyze_performance`. -/
structure PerfRec where
  file : String
  loops : Nat
  recursion : Nat
  max_nesting : Nat
deriving DecidableEq, Repr

/-- Per-file work of `analyze_performance`: loop count, the recursion
heuristic (`func_name in content` for every line containing `def `), and the
line-based nesting counter that resets on any non-blank non-continuation
line. -/
def performanceStep (f : String) (c : PyStr) : List PerfRec :=
  let lines := splitNl c
  [⟨f,
    (lines.filter (fun l =>
      ["for ", "while "].any (fun kw => kw.toList.isPrefixOf (pyStrip l)))).length,
    (lines.filter (fun l => pyIn ("def ".toList) l && pyIn (defName l) c)).length,
    (lines.foldl
      (fun st l =>
        if ["if ", "for ", "while ", "def ", "class "].any
            (fun kw => kw.toList.isPrefixOf (pyStrip l)) then
          (max st.1 (st.2 + 1), st.2 + 1)
        else if !(pyStrip l).isEmpty &&
            !(["else:", "elif "].any (fun kw => kw.toList.isPrefixOf (pyStrip l))) then
          (st.1, 0)
        else st)
      (0, 0)).1⟩]

/-- `CodeAnalyzer.analyze_performance`. -/
def analyze_performance (fs : FileSys) (tracked : List String)
    (file_path : Option String) : List PerfRec × List String :=
  runBatch performanceStep fs (filesFor tracked file_path)

/-- Modelled from the claim's wording, for comparison with the source: count
the lines containing `def ` whose extracted function name reappears in some
other line of the file. -/
def claimRecursion (c : PyStr) : Nat :=
  ((splitNl c).enum).countP (fun p =>
    pyIn ("def ".toList) p.2 &&
    ((splitNl c).enum).any (fun q => q.1 != p.1 && pyIn (defName p.2) q.2))

/-!
Security analyzer (`CodeAnalyzer.analyze_security`).  The `re` module is an
external library, so the matcher below is modelled from the spec's pattern
table: each pattern is a sequence of single-character atoms, optionally
starred (`*`) or repeated (`+`), and `reSearch` is `re.search` restricted to
those constructs (a boolean: does the pattern match anywhere in the line). -/

/-- A single-character regex atom. -/
inductive RAtom where
  | lit (c : Char)
  | anyChar
  | wsChar
  | oneOf (cs : List Char)
  | noneOf (cs : List Char)
deriving DecidableEq, Repr

/-- One regex item: an atom, a starred atom, or a `+`-repeated atom. -/
inductive RItem where
  | once (a : RAtom)
  | star (a : RAtom)
  | plus (a : RAtom)
deriving DecidableEq, Repr

/-- Does atom `a` match character `c`?  `.` matches everything but a
newline; `\s` matches Python whitespace. -/
def matchAtom (a : RAtom) (c : Char) : Bool :=
  match a with
  | RAtom.lit c' => c = c'
  | RAtom.anyChar => c != '\n'
  | RAtom.wsChar => isPyWs c
  | RAtom.oneOf cs => cs.contains c
  | RAtom.noneOf cs => !cs.contains c

/-- Backtracking matcher: does `items` match a prefix of `s`?  Every
recursive call shrinks `items.length + s.length`, so
`items.length + s.length + 1` fuel always suffices. -/
def matchP : Nat → List RItem → List Char → Bool
  | 0, _, _ => false
  | _ + 1, [], _ => true
  | _ + 1, RItem.once _ :: _, [] => false
  | fuel + 1, RItem.once a :: rest, c :: t => matchAtom a c && matchP fuel rest t
  | fuel + 1, RItem.star a :: rest, s =>
    matchP fuel rest s ||
      (match s with
       | [] => false
       | c :: t => matchAtom a c && matchP fuel (RItem.star a :: rest) t)
  | _ + 1, RItem.plus _ :: _, [] => false
  | fuel + 1, RItem.plus a :: rest, c :: t =>
    matchAtom a c && matchP fuel (RItem.star a :: rest) t

/-- `re.search(pattern, line)` as a boolean: the pattern matches starting at
some position of `s`. -/
def reSearch (p : List RItem) (s : List Char) : Bool :=
  s.tails.any (fun t => matchP (p.length + t.length + 1) p t)

/-- A literal character sequence as regex items. -/
def rlits (s : String) : List RItem :=
  s.toList.map (fun c => RItem.once (RAtom.lit c))

/-- Regex `.*`. -/
def dotStar : RItem := RItem.star RAtom.anyChar

/-- Regex `\s*`. -/
def wsStar : RItem := RItem.star RAtom.wsChar

/-- Regex `['"]`. -/
def quoteCls : RItem := RItem.once (RAtom.oneOf ['\'', '"'])

/-- Regex `['"]\s*\+\s*['"]`: the quote-plus-quote concatenation construct
shared by all SQL injection patterns. -/
def quotePlusQuote : List RItem :=
  [quoteCls, wsStar, RItem.once (RAtom.lit '+'), wsStar, quoteCls]

/-- Regex `[^'"]+`. -/
def notQuotePlus : RItem := RItem.plus (RAtom.noneOf ['\'', '"'])

/-- A credential pattern `name\s*=\s*['"][^'"]+['"]`. -/
def credPattern (name : String) : List RItem :=
  rlits name ++ [wsStar, RItem.once (RAtom.lit '='), wsStar, quoteCls, notQuotePlus, quoteCls]

/-- The fixed security pattern table of `analyze_security`, in the source's
dictionary insertion order. -/
def securityPatterns : List (String × List (List RItem)) :=
  [("SQL Injection",
    [rlits "SELECT" ++ [dotStar] ++ rlits "FROM" ++ [dotStar] ++ rlits "WHERE" ++
       [dotStar] ++ rlits "=" ++ [dotStar] ++ quotePlusQuote,
     rlits "INSERT" ++ [dotStar] ++ rlits "INTO" ++ [dotStar] ++ rlits "VALUES" ++
       [dotStar] ++ quotePlusQuote,
     rlits "UPDATE" ++ [dotStar] ++ rlits "SET" ++ [dotStar] ++ rlits "=" ++
       [dotStar] ++ quotePlusQuote,
     rlits "DELETE" ++ [dotStar] ++ rlits "FROM" ++ [dotStar] ++ rlits "WHERE" ++
       [dotStar] ++ rlits "=" ++ [dotStar] ++ quotePlusQuote]),
   ("Command Injection",
    [rlits "os.system(", rlits "subprocess.call(", rlits "exec(", rlits "eval("]),
   ("Path Traversal",
    [rlits "../", rlits "..\\", rlits "%2e%2e%2f", rlits "%252e%252e%252f"]),
   ("Hardcoded Credentials",
    [credPattern "password", credPattern "api_key", credPattern "secret"])]

/-- One finding of `analyze_security`. -/
structure SecFinding where
  file : String
  line : Nat
  issue_type : String
  code : PyStr
deriving DecidableEq, Repr

/-- Per-file work of `analyze_security`: one finding per
(line, category, matching pattern), lines numbered from 1, categories and
patterns in table order. -/
def securityStep (f : String) (c : PyStr) : List SecFinding :=
  ((splitNl c).enum).flatMap (fun p =>
    securityPatterns.flatMap (fun cp =>
      cp.2.filterMap (fun pat =>
        if reSearch pat p.2 then some ⟨f, p.1 + 1, cp.1, pyStrip p.2⟩ else none)))

/-- `CodeAnalyzer.analyze_security`. -/
def analyze_security (fs : FileSys) (tracked : List String)
    (file_path : Option String) : List SecFinding × List String :=
  runBatch securityStep fs (filesFor tracked file_path)

/-!
Duplicate scanner (`CodeAnalyzer.find_duplicates`).
-/

/-- One duplicate group: a fragment key with its occurrence list. -/
structure DupGroup where
  fragment : PyStr
  occurrences : List (String × Nat)
deriving DecidableEq, Repr

/-- `defaultdict(list)` update preserving dictionary insertion order: append
`v` to the list at key `k`, creating the entry at the end when absent. -/
def dictAppend (m : List (PyStr × List (String × Nat))) (k : PyStr) (v : String × Nat) :
    List (PyStr × List (String × Nat)) :=
  match m with
  | [] => [(k, [v])]
  | e :: rest => if e.1 = k then (e.1, e.2 ++ [v]) :: rest else e :: dictAppend rest k v

/-- `CodeAnalyzer.find_duplicates`: scan each readable file's windows
`lines[i:i + min_length]` for `i in range(len(lines) - min_length + 1)`, key
them by the joined text, skip fragments that strip to the empty string,
record `(file, i + 1)`, and return the groups with more than one occurrence
in dictionary insertion order.  A read error is caught and printed, and the
scan continues (the returned value carries no error information). -/
def find_duplicates (files : List (String × Except String PyStr)) (min_length : Int) :
    List DupGroup :=
  let code_fragments := files.foldl
    (fun m e =>
      match e.2 with
      | Except.error _ => m
      | Except.ok content =>
        let lines := splitNl content
        (List.range (((lines.length : Int) - min_length + 1).toNat)).foldl
          (fun m i =>
            let fragment := joinNl (pySliceTo lines i ((i : Int) + min_length))
            if !(pyStrip fragment).isEmpty then dictAppend m fragment (e.1, i + 1) else m)
          m)
    []
  (code_fragments.filter (fun g => 1 < g.2.length)).map (fun g => ⟨g.1, g.2⟩)

/-- `print(f"Ошибка при чтении файла {file}: {str(e)}")` of the scanner's
except branch. -/
def dupErrMsg (f e : String) : String :=
  "Ошибка при чтении файла " ++ f ++ ": " ++ e

/-- `CodeAnalyzer.find_duplicates` with its printed output: the same scan as
`find_duplicates`, threading alongside the fragment dictionary the list of
diagnostics the except branch prints, one per unreadable file, in file
order.  The groups are built from the dictionary exactly as in
`find_duplicates`; the messages never enter the returned group list. -/
def find_duplicates_run (files : List (String × Except String PyStr))
    (min_length : Int) : List DupGroup × List String :=
  let scanned := files.foldl
    (fun (st : List (PyStr × List (String × Nat)) × List String) e =>
      match e.2 with
      | Except.error err => (st.1, st.2 ++ [dupErrMsg e.1 err])
      | Except.ok content =>
        let lines := splitNl content
        ((List.range (((lines.length : Int) - min_length + 1).toNat)).foldl
          (fun m i =>
            let fragment := joinNl (pySliceTo lines i ((i : Int) + min_length))
            if !(pyStrip fragment).isEmpty then dictAppend m fragment (e.1, i + 1) else m)
          st.1,
         st.2))
    ([], [])
  ((scanned.1.filter (fun g => 1 < g.2.length)).map (fun g => ⟨g.1, g.2⟩), scanned.2)

/-- The scan list of one readable file: its keyed windows (implementation
shape, using the Python slice) with their occurrence records, whitespace-only
fragments dropped. -/
def windowsOf (n : Int) (f : String) (c : PyStr) : List (PyStr × (String × Nat)) :=
  let lines := splitNl c
  ((List.range (((lines.length : Int) - n + 1).toNat)).map
    (fun i => (joinNl (pySliceTo lines i ((i : Int) + n)), (f, i + 1)))).filter
    (fun w => !(pyStrip w.1).isEmpty)

/-- The scan list of a file set: all keyed windows in file-then-index order. -/
def scanOf (files : List (String × Except String PyStr)) (n : Int) :
    List (PyStr × (String × Nat)) :=
  files.flatMap (fun e =>
    match e.2 with
    | Except.error _ => []
    | Except.ok c => windowsOf n e.1 c)

/-- First-occurrence deduplication, preserving order. -/
def dedupFirst {α : Type} [DecidableEq α] : List α → List α
  | [] => []
  | k :: t => k :: (dedupFirst t).filter (fun k' => k' ≠ k)

/-- The scan list as the spec states it: windows of `minLength` consecutive
lines (start indices 0 to `len - minLength` inclusive), keyed by the
`minLength` lines joined by newline, skipping keys that are whitespace-only
after stripping, with occurrence records `(file, i + 1)`. -/
def dupScanSpec (files : List (String × Except String PyStr)) (n : Int) :
    List (PyStr × (String × Nat)) :=
  files.flatMap (fun e =>
    match e.2 with
    | Except.error _ => []
    | Except.ok c =>
      let lines := splitNl c
      ((List.range (((lines.length : Int) - n + 1).toNat)).map
        (fun i => (joinNl ((lines.drop i).take n.toNat), (e.1, i + 1)))).filter
        (fun w => !(pyStrip w.1).isEmpty))

/-- The duplicate map of a scan list: keys in first-occurrence order, each
with all its occurrences in scan order. -/
def dupMapOf (scan : List (PyStr × (String × Nat))) : List (PyStr × List (String × Nat)) :=
  (dedupFirst (scan.map Prod.fst)).map
    (fun k => (k, (scan.filter (fun w => w.1 = k)).map Prod.snd))

/-- The duplicate groups as the spec states them: the scan's groups whose
occurrence count is at least 2, keyed in first-occurrence order. -/
def dupSpec (files : List (String × Except String PyStr)) (n : Int) : List DupGroup :=
  (dedupFirst ((dupScanSpec files n).map Prod.fst)).filterMap (fun k =>
    let occ := ((dupScanSpec files n).filter (fun w => w.1 = k)).map Prod.snd
    if 1 < occ.length then some ⟨k, occ⟩ else none)

/-!
Theorems.  First: the longest-match result always lies inside its window.
-/

theorem validM_mk {alo ahi blo bhi i j k : Nat} (h1 : alo ≤ i) (h2 : i + k ≤ ahi)
    (h3 : blo ≤ j) (h4 : j + k ≤ bhi) : ValidM alo ahi blo bhi (i, j, k) :=
  ⟨h1, h2, h3, h4⟩

theorem flmStep_fst (j2len : Nat → Nat) (i : Nat)
    (st : (Nat → Nat) × (Nat × Nat × Nat)) (j j' : Nat) :
    (flmStep j2len i st j).1 j' =
      if j' = j then (if j = 0 then 1 else j2len (j - 1) + 1) else st.1 j' := rfl

theorem flmStep_snd (j2len : Nat → Nat) (i : Nat)
    (st : (Nat → Nat) × (Nat × Nat × Nat)) (j : Nat) :
    (flmStep j2len i st j).2 =
      if st.2.2.2 < (if j = 0 then 1 else j2len (j - 1) + 1) then
        (i + 1 - (if j = 0 then 1 else j2len (j - 1) + 1),
         j + 1 - (if j = 0 then 1 else j2len (j - 1) + 1),
         (if j = 0 then 1 else j2len (j - 1) + 1))
      else st.2 := rfl

theorem flmStep_valid {alo ahi blo bhi : Nat} {j2len : Nat → Nat} {i : Nat}
    (hJ : JInv alo blo j2len i) (hi : alo ≤ i) (hia : i < ahi)
    {st : (Nat → Nat) × (Nat × Nat × Nat)} {j : Nat}
    (h1 : JInv alo blo st.1 (i + 1)) (h2 : ValidM alo ahi blo bhi st.2)
    (hj : blo ≤ j) (hjb : j < bhi) :
    JInv alo blo (flmStep j2len i st j).1 (i + 1) ∧
      ValidM alo ahi blo bhi (flmStep j2len i st j).2 := by
  have hk : 1 ≤ (if j = 0 then 1 else j2len (j - 1) + 1) ∧
      (if j = 0 then 1 else j2len (j - 1) + 1) + blo ≤ j + 1 ∧
      (if j = 0 then 1 else j2len (j - 1) + 1) + alo ≤ i + 1 := by
    split
    · omega
    · rcases hJ (j - 1) with h0 | ⟨hb1, hb2, hb3⟩ <;> omega
  constructor
  · intro j'
    rw [flmStep_fst]
    by_cases hjj : j' = j
    · subst hjj
      rw [if_pos rfl]
      exact Or.inr ⟨hj, hk.2.1, hk.2.2⟩
    · rw [if_neg hjj]
      exact h1 j'
  · rw [flmStep_snd]
    by_cases hlt : st.2.2.2 < (if j = 0 then 1 else j2len (j - 1) + 1)
    · rw [if_pos hlt]
      exact validM_mk (by omega) (by omega) (by omega) (by omega)
    · rw [if_neg hlt]
      exact h2

theorem flmFold_valid {alo ahi blo bhi : Nat} {j2len : Nat → Nat} {i : Nat}
    (hJ : JInv alo blo j2len i) (hi : alo ≤ i) (hia : i < ahi) :
    ∀ (js : List Nat), (∀ j ∈ js, blo ≤ j ∧ j < bhi) →
      ∀ (st : (Nat → Nat) × (Nat × Nat × Nat)),
        JInv alo blo st.1 (i + 1) → ValidM alo ahi blo bhi st.2 →
        JInv alo blo (js.foldl (flmStep j2len i) st).1 (i + 1) ∧
          ValidM alo ahi blo bhi (js.foldl (flmStep j2len i) st).2 := by
  intro js
  induction js with
  | nil => intro _ st h1 h2; exact ⟨h1, h2⟩
  | cons j t ih =>
    intro hmem st h1 h2
    simp only [List.foldl_cons]
    have hstep := flmStep_valid hJ hi hia h1 h2 (hmem j (by simp)).1 (hmem j (by simp)).2
    exact ih (fun j' hj' => hmem j' (by simp [hj'])) _ hstep.1 hstep.2

theorem flmRow_valid {b : List PyStr} {alo ahi blo bhi : Nat} {x : PyStr} {i : Nat}
    {j2len : Nat → Nat} {best : Nat × Nat × Nat}
    (hJ : JInv alo blo j2len i) (hB : ValidM alo ahi blo bhi best)
    (hi : alo ≤ i) (hia : i < ahi) :
    JInv alo blo (flmRow b blo bhi x i j2len best).1 (i + 1) ∧
      ValidM alo ahi blo bhi (flmRow b blo bhi x i j2len best).2 := by
  refine flmFold_valid hJ hi hia _ ?_ ((fun _ => 0), best) (fun j => Or.inl rfl) hB
  intro j hj
  rw [List.mem_filter] at hj
  have := of_decide_eq_true hj.2
  exact ⟨this.1, List.mem_range.1 hj.1⟩

theorem flmRows_valid {a b : List PyStr} {alo ahi blo bhi : Nat} :
    ∀ (n s : Nat), alo ≤ s → s + n ≤ ahi →
      ∀ (st : (Nat → Nat) × (Nat × Nat × Nat)),
        JInv alo blo st.1 s → ValidM alo ahi blo bhi st.2 →
        ValidM alo ahi blo bhi
          (((List.range' s n).foldl
            (fun st i => flmRow b blo bhi (a.getD i []) i st.1 st.2) st).2) := by
  intro n
  induction n with
  | zero => intro s _ _ st _ h2; simpa [List.range'] using h2
  | succ n ih =>
    intro s hs hsn st h1 h2
    rw [List.range'_succ]
    simp only [List.foldl_cons]
    have hrow := flmRow_valid (b := b) (x := a.getD s []) h1 h2 hs (by omega)
    exact ih (s + 1) (by omega) (by omega) _ hrow.1 hrow.2

theorem find_longest_match_valid {a b : List PyStr} {alo ahi blo bhi : Nat}
    (hA : alo ≤ ahi) (hB : blo ≤ bhi) :
    ValidM alo ahi blo bhi (find_longest_match a b alo ahi blo bhi) := by
  unfold find_longest_match
  refine flmRows_valid (ahi - alo) alo le_rfl (by omega) _ (fun j => Or.inl rfl) ?_
  exact validM_mk le_rfl (by omega) le_rfl (by omega)

/-!
The matching blocks are ordered, non-overlapping and inside the window.
-/

theorem blocksOK_mono_lo {endA endB m n loA loB : Nat} {L : List (Nat × Nat × Nat)}
    (h : BlocksOK endA endB m n L) (hA : loA ≤ m) (hB : loB ≤ n) :
    BlocksOK endA endB loA loB L := by
  cases L with
  | nil => trivial
  | cons blk t =>
    obtain ⟨i, j, k⟩ := blk
    obtain ⟨u1, u2, u3, u4, u5, u6⟩ := h
    exact ⟨by omega, by omega, u3, u4, u5, u6⟩

theorem blocksOK_append {endA endB : Nat} :
    ∀ (L M : List (Nat × Nat × Nat)) (loA loB m n : Nat),
      BlocksOK m n loA loB L → BlocksOK endA endB m n M →
      m ≤ endA → n ≤ endB → loA ≤ m → loB ≤ n →
      BlocksOK endA endB loA loB (L ++ M) := by
  intro L
  induction L with
  | nil =>
    intro M loA loB m n _ hM _ _ h5 h6
    exact blocksOK_mono_lo hM h5 h6
  | cons blk t ih =>
    intro M loA loB m n hL hM h3 h4 h5 h6
    obtain ⟨i, j, k⟩ := blk
    obtain ⟨u1, u2, u3, u4, u5, u6⟩ := hL
    exact ⟨u1, u2, u3, by omega, by omega, ih M (i + k) (j + k) m n u6 hM h3 h4 u4 u5⟩

theorem blocksOK_cons {endA endB loA loB : Nat} {m : Nat × Nat × Nat}
    {rest : List (Nat × Nat × Nat)}
    (h1 : loA ≤ m.1) (h2 : loB ≤ m.2.1) (h3 : 1 ≤ m.2.2) (h4 : m.1 + m.2.2 ≤ endA)
    (h5 : m.2.1 + m.2.2 ≤ endB)
    (h6 : BlocksOK endA endB (m.1 + m.2.2) (m.2.1 + m.2.2) rest) :
    BlocksOK endA endB loA loB (m :: rest) := by
  obtain ⟨i, j, k⟩ := m
  exact ⟨h1, h2, h3, h4, h5, h6⟩

theorem mbF_blocksOK {a b : List PyStr} :
    ∀ (fuel alo ahi blo bhi : Nat), alo ≤ ahi → blo ≤ bhi →
      BlocksOK ahi bhi alo blo (mbF a b fuel alo ahi blo bhi) := by
  intro fuel
  induction fuel with
  | zero => intro alo ahi blo bhi _ _; trivial
  | succ fuel ih =>
    intro alo ahi blo bhi hA hB
    have hv := find_longest_match_valid (a := a) (b := b) hA hB
    simp only [mbF]
    by_cases hk : (find_longest_match a b alo ahi blo bhi).2.2 = 0
    · simp only [hk, if_pos rfl]; trivial
    · simp only [if_neg hk]
      obtain ⟨hv1, hv2, hv3, hv4⟩ := hv
      refine blocksOK_append _ _ alo blo (find_longest_match a b alo ahi blo bhi).1
        (find_longest_match a b alo ahi blo bhi).2.1
        (ih alo _ blo _ hv1 hv3) ?_ (by omega) (by omega) hv1 hv3
      exact blocksOK_cons le_rfl le_rfl (by omega) hv2 hv4
        (ih _ ahi _ bhi (by omega) (by omega))

theorem get_matching_blocks_ok (a b : List PyStr) :
    BlocksOK a.length b.length 0 0 (get_matching_blocks a b) :=
  mbF_blocksOK _ _ _ _ _ (Nat.zero_le _) (Nat.zero_le _)

/-!
The opcodes tile both sequences exactly.
-/

theorem opsCover_append :
    ∀ (L1 L2 : List Op) (i j m n la lb : Nat),
      opsCover i j L1 m n = true → opsCover m n L2 la lb = true →
      opsCover i j (L1 ++ L2) la lb = true := by
  intro L1
  induction L1 with
  | nil =>
    intro L2 i j m n la lb h1 h2
    simp only [opsCover, Bool.and_eq_true, decide_eq_true_eq] at h1
    obtain ⟨rfl, rfl⟩ := h1
    simpa using h2
  | cons op t ih =>
    intro L2 i j m n la lb h1 h2
    simp only [List.cons_append, opsCover, Bool.and_eq_true] at h1 ⊢
    exact ⟨h1.1, ih L2 _ _ m n la lb h1.2 h2⟩

theorem opsCover_gap {i j ai bj : Nat} (hi : i ≤ ai) (hj : j ≤ bj) :
    opsCover i j
      (if i < ai ∧ j < bj then [⟨Tag.replace, i, ai, j, bj⟩]
       else if i < ai then [⟨Tag.delete, i, ai, j, bj⟩]
       else if j < bj then [⟨Tag.insert, i, ai, j, bj⟩]
       else []) ai bj = true := by
  by_cases h1 : i < ai ∧ j < bj
  · rw [if_pos h1]
    simp only [opsCover, Bool.and_eq_true, decide_eq_true_eq]
    exact ⟨⟨⟨⟨trivial, trivial⟩, hi⟩, hj⟩, trivial, trivial⟩
  · rw [if_neg h1]
    by_cases h2 : i < ai
    · rw [if_pos h2]
      simp only [opsCover, Bool.and_eq_true, decide_eq_true_eq]
      exact ⟨⟨⟨⟨trivial, trivial⟩, hi⟩, hj⟩, trivial, trivial⟩
    · rw [if_neg h2]
      by_cases h3 : j < bj
      · rw [if_pos h3]
        simp only [opsCover, Bool.and_eq_true, decide_eq_true_eq]
        exact ⟨⟨⟨⟨trivial, trivial⟩, hi⟩, hj⟩, trivial, trivial⟩
      · rw [if_neg h3]
        simp only [opsCover, Bool.and_eq_true, decide_eq_true_eq]
        omega

theorem opsCover_walk {la lb : Nat} :
    ∀ (bl : List (Nat × Nat × Nat)) (i j : Nat),
      BlocksOK la lb i j bl → i ≤ la → j ≤ lb →
      opsCover i j (opcodesWalk i j (bl ++ [(la, lb, 0)])) la lb = true := by
  intro bl
  induction bl with
  | nil =>
    intro i j _ hi hj
    simp only [List.nil_append, opcodesWalk]
    rw [if_neg (by omega : ¬ 1 ≤ 0)]
    simp only [List.append_nil]
    exact opsCover_gap hi hj
  | cons blk t ih =>
    obtain ⟨ai, bj, sz⟩ := blk
    intro i j hB hi hj
    obtain ⟨u1, u2, u3, u4, u5, u6⟩ := hB
    simp only [List.cons_append, opcodesWalk]
    rw [List.append_assoc]
    refine opsCover_append _ _ i j ai bj la lb (opsCover_gap u1 u2) ?_
    rw [if_pos u3]
    refine opsCover_append _ _ ai bj (ai + sz) (bj + sz) la lb ?_
      (ih (ai + sz) (bj + sz) u6 (by omega) (by omega))
    simp only [opsCover, Bool.and_eq_true, decide_eq_true_eq]
    exact ⟨⟨⟨⟨trivial, trivial⟩, Nat.le_add_right ai sz⟩, Nat.le_add_right bj sz⟩, trivial, trivial⟩

theorem get_opcodes_cover (a b : List PyStr) :
    opsCover 0 0 (get_opcodes a b) a.length b.length = true := by
  unfold get_opcodes
  exact opsCover_walk _ 0 0 (get_matching_blocks_ok a b) (Nat.zero_le _) (Nat.zero_le _)

/-!
Flattening opcodes into rows: each side of the rows reproduces the
corresponding slice of the input, provided every replace span is balanced.
-/

theorem filterMap_fst_pairs_some {α β γ : Type} (l : List γ) (f : γ → α) (g : γ → Option β) :
    (l.map (fun x => ((some (f x) : Option α), g x))).filterMap Prod.fst = l.map f := by
  induction l with
  | nil => rfl
  | cons x t ih => simp only [List.map_cons, List.filterMap_cons, ih]

theorem filterMap_fst_pairs_none {α β γ : Type} (l : List γ) (g : γ → Option β) :
    (l.map (fun x => ((none : Option α), g x))).filterMap Prod.fst = [] := by
  induction l with
  | nil => rfl
  | cons x t ih => simp only [List.map_cons, List.filterMap_cons, ih]

theorem filterMap_snd_pairs_some {α β γ : Type} (l : List γ) (f : γ → Option α) (g : γ → β) :
    (l.map (fun x => (f x, some (g x)))).filterMap Prod.snd = l.map g := by
  induction l with
  | nil => rfl
  | cons x t ih => simp only [List.map_cons, List.filterMap_cons, ih]

theorem filterMap_snd_pairs_none {α β γ : Type} (l : List γ) (f : γ → Option α) :
    (l.map (fun x => (f x, (none : Option β)))).filterMap Prod.snd = [] := by
  induction l with
  | nil => rfl
  | cons x t ih => simp only [List.map_cons, List.filterMap_cons, ih]

theorem map_getD_fst_zip (a : List PyStr) (xs ys : List Nat) (h : xs.length = ys.length) :
    (xs.zip ys).map (fun p => a.getD p.1 []) = xs.map (fun t => a.getD t []) := by
  rw [show (fun p : Nat × Nat => a.getD p.1 []) = (fun t => a.getD t []) ∘ Prod.fst from rfl,
    ← List.map_map, List.map_fst_zip xs ys (by omega)]

theorem map_getD_snd_zip (b : List PyStr) (xs ys : List Nat) (h : xs.length = ys.length) :
    (xs.zip ys).map (fun p => b.getD p.2 []) = ys.map (fun t => b.getD t []) := by
  rw [show (fun p : Nat × Nat => b.getD p.2 []) = (fun t => b.getD t []) ∘ Prod.snd from rfl,
    ← List.map_map, List.map_snd_zip xs ys (by omega)]

theorem range'_map_getD {α : Type} (l : List α) (d : α) :
    ∀ (n s : Nat), s + n ≤ l.length →
      (List.range' s n).map (fun t => l.getD t d) = (l.drop s).take n := by
  intro n
  induction n with
  | zero => simp
  | succ n ih =>
    intro s hs
    have hlt : s < l.length := by omega
    rw [List.range'_succ]
    simp only [List.map_cons]
    rw [List.drop_eq_getElem_cons hlt, List.getD_eq_getElem l d hlt,
      List.take_succ_cons, ih (s + 1) (by omega)]

theorem range'_map_shift {α : Type} (g : Nat → α) :
    ∀ (n s u : Nat),
      (List.range' s n).map (fun t => g (u + (t - s))) = (List.range' u n).map g := by
  intro n
  induction n with
  | zero => simp
  | succ n ih =>
    intro s u
    rw [List.range'_succ, List.range'_succ]
    simp only [List.map_cons, Nat.sub_self, Nat.add_zero]
    congr 1
    rw [← ih (s + 1) (u + 1)]
    refine List.map_congr_left (fun t ht => ?_)
    have := List.mem_range'_1.1 ht
    congr 1
    omega

theorem take_drop_glue {α : Type} (l : List α) {i ai : Nat} (h : i ≤ ai) :
    (l.drop i).take (ai - i) ++ l.drop ai = l.drop i := by
  have hd : l.drop ai = (l.drop i).drop (ai - i) := by
    rw [List.drop_drop]
    congr 1
    omega
  rw [hd, List.take_append_drop]

theorem replaceBalanced_append (L M : List Op) :
    replaceBalanced (L ++ M) = (replaceBalanced L && replaceBalanced M) :=
  List.all_append

theorem replaceBalanced_gap {i ai j bj : Nat}
    (hbal : replaceBalanced
      (if i < ai ∧ j < bj then [(⟨Tag.replace, i, ai, j, bj⟩ : Op)]
       else if i < ai then [⟨Tag.delete, i, ai, j, bj⟩]
       else if j < bj then [⟨Tag.insert, i, ai, j, bj⟩]
       else []) = true) :
    i < ai → j < bj → ai - i = bj - j := by
  intro h1 h2
  rw [if_pos ⟨h1, h2⟩] at hbal
  simpa [replaceBalanced] using hbal

theorem gapRows_sides {a b : List PyStr} {i ai j bj : Nat}
    (hi : i ≤ ai) (hj : j ≤ bj) (hA : ai ≤ a.length) (hB : bj ≤ b.length)
    (hbal : i < ai → j < bj → ai - i = bj - j) :
    (((if i < ai ∧ j < bj then [(⟨Tag.replace, i, ai, j, bj⟩ : Op)]
       else if i < ai then [⟨Tag.delete, i, ai, j, bj⟩]
       else if j < bj then [⟨Tag.insert, i, ai, j, bj⟩]
       else []).flatMap (opRows a b)).filterMap Prod.fst = (a.drop i).take (ai - i)) ∧
    (((if i < ai ∧ j < bj then [(⟨Tag.replace, i, ai, j, bj⟩ : Op)]
       else if i < ai then [⟨Tag.delete, i, ai, j, bj⟩]
       else if j < bj then [⟨Tag.insert, i, ai, j, bj⟩]
       else []).flatMap (opRows a b)).filterMap Prod.snd = (b.drop j).take (bj - j)) := by
  by_cases h1 : i < ai ∧ j < bj
  · rw [if_pos h1]
    have hm := hbal h1.1 h1.2
    have hlen : (List.range' i (ai - i)).length = (List.range' j (bj - j)).length := by
      simp only [List.length_range']
      omega
    simp only [List.flatMap_cons, List.flatMap_nil, List.append_nil, opRows]
    constructor
    · rw [filterMap_fst_pairs_some, map_getD_fst_zip a _ _ hlen,
        range'_map_getD a [] (ai - i) i (by omega)]
    · rw [filterMap_snd_pairs_some, map_getD_snd_zip b _ _ hlen,
        range'_map_getD b [] (bj - j) j (by omega)]
  · rw [if_neg h1]
    by_cases h2 : i < ai
    · rw [if_pos h2]
      simp only [List.flatMap_cons, List.flatMap_nil, List.append_nil, opRows]
      constructor
      · rw [filterMap_fst_pairs_some, range'_map_getD a [] (ai - i) i (by omega)]
      · rw [filterMap_snd_pairs_none, show bj - j = 0 by omega, List.take_zero]
    · rw [if_neg h2]
      by_cases h3 : j < bj
      · rw [if_pos h3]
        simp only [List.flatMap_cons, List.flatMap_nil, List.append_nil, opRows]
        constructor
        · rw [filterMap_fst_pairs_none, show ai - i = 0 by omega, List.take_zero]
        · rw [filterMap_snd_pairs_some, range'_map_getD b [] (bj - j) j (by omega)]
      · rw [if_neg h3]
        simp only [List.flatMap_nil, List.filterMap_nil]
        rw [show ai - i = 0 by omega, show bj - j = 0 by omega]
        simp

theorem equalRows_sides {a b : List PyStr} {ai bj sz : Nat}
    (hA : ai + sz ≤ a.length) (hB : bj + sz ≤ b.length) :
    ((opRows a b ⟨Tag.equal, ai, ai + sz, bj, bj + sz⟩).filterMap Prod.fst
        = (a.drop ai).take sz) ∧
    ((opRows a b ⟨Tag.equal, ai, ai + sz, bj, bj + sz⟩).filterMap Prod.snd
        = (b.drop bj).take sz) := by
  constructor
  · simp only [opRows]
    rw [filterMap_fst_pairs_some, show ai + sz - ai = sz from by omega,
      range'_map_getD a [] sz ai hA]
  · simp only [opRows]
    rw [filterMap_snd_pairs_some, show ai + sz - ai = sz from by omega,
      range'_map_shift (fun t => b.getD t []) sz ai bj,
      range'_map_getD b [] sz bj hB]

theorem walkRows_eq {a b : List PyStr} :
    ∀ (bl : List (Nat × Nat × Nat)) (i j : Nat),
      BlocksOK a.length b.length i j bl → i ≤ a.length → j ≤ b.length →
      replaceBalanced (opcodesWalk i j (bl ++ [(a.length, b.length, 0)])) = true →
      ((opcodesWalk i j (bl ++ [(a.length, b.length, 0)])).flatMap (opRows a b)).filterMap
          Prod.fst = a.drop i ∧
      ((opcodesWalk i j (bl ++ [(a.length, b.length, 0)])).flatMap (opRows a b)).filterMap
          Prod.snd = b.drop j := by
  intro bl
  induction bl with
  | nil =>
    intro i j _ hi hj hbal
    simp only [List.nil_append, opcodesWalk] at hbal ⊢
    rw [if_neg (by omega : ¬ 1 ≤ 0)] at hbal ⊢
    simp only [List.append_nil] at hbal ⊢
    have hg := gapRows_sides hi hj le_rfl le_rfl (replaceBalanced_gap hbal)
    constructor
    · rw [hg.1]
      exact List.take_of_length_le (by simp [List.length_drop])
    · rw [hg.2]
      exact List.take_of_length_le (by simp [List.length_drop])
  | cons blk t ih =>
    obtain ⟨ai, bj, sz⟩ := blk
    intro i j hB hi hj hbal
    obtain ⟨u1, u2, u3, u4, u5, u6⟩ := hB
    simp only [List.cons_append, opcodesWalk] at hbal ⊢
    rw [if_pos u3] at hbal ⊢
    rw [List.append_assoc] at hbal ⊢
    rw [replaceBalanced_append, Bool.and_eq_true] at hbal
    obtain ⟨hbgap, hbal2⟩ := hbal
    rw [replaceBalanced_append, Bool.and_eq_true] at hbal2
    obtain ⟨hbeq, hbrest⟩ := hbal2
    have hg := gapRows_sides (a := a) (b := b) u1 u2 (by omega) (by omega)
      (replaceBalanced_gap hbgap)
    have he := equalRows_sides (a := a) (b := b) u4 u5
    have hr := ih (ai + sz) (bj + sz) u6 (by omega) (by omega) hbrest
    simp only [List.flatMap_append, List.filterMap_append, List.flatMap_cons,
      List.flatMap_nil, List.append_nil, List.append_eq]
    have hglue1 : (a.drop ai).take sz ++ a.drop (ai + sz) = a.drop ai := by
      have h := take_drop_glue a (show ai ≤ ai + sz by omega)
      rwa [show ai + sz - ai = sz from by omega] at h
    have hglue2 : (b.drop bj).take sz ++ b.drop (bj + sz) = b.drop bj := by
      have h := take_drop_glue b (show bj ≤ bj + sz by omega)
      rwa [show bj + sz - bj = sz from by omega] at h
    constructor
    · rw [hg.1, he.1, hr.1, hglue1, take_drop_glue a u1]
    · rw [hg.2, he.2, hr.2, hglue2, take_drop_glue b u2]

/-- C1 (amended): for all line sequences `A`, `B`, the opcode ranges of
`diff(A, B)` partition both `A` and `B` exactly (no gaps, no overlaps), and
whenever every replace span pairs ranges of equal length, concatenating the
present old-side entries of the flattened rows reproduces `A` and the present
new-side entries reproduce `B`.  (As stated the claim is false: a replace
span with unequal lengths drops its surplus instead of emitting trailing
insert/delete rows — see the counterexample.) -/
theorem diff_partition_balanced (a b : List PyStr) :
    opsCover 0 0 (get_opcodes a b) a.length b.length = true ∧
    (replaceBalanced (get_opcodes a b) = true →
      (diffRows a b).filterMap Prod.fst = a ∧ (diffRows a b).filterMap Prod.snd = b) := by
  refine ⟨get_opcodes_cover a b, fun hbal => ?_⟩
  have h := walkRows_eq (get_matching_blocks a b) 0 0 (get_matching_blocks_ok a b)
    (Nat.zero_le _) (Nat.zero_le _) hbal
  simpa [diffRows, get_opcodes] using h

/-- C1 witness: the theorem applied to `A = ["x"]`, `B = ["x", "y"]`, whose
single insert gap keeps every replace span (there are none) balanced. -/
theorem diff_partition_balanced_witness :
    opsCover 0 0 (get_opcodes [['x']] [['x'], ['y']]) 1 2 = true ∧
    ((diffRows [['x']] [['x'], ['y']]).filterMap Prod.fst = [['x']] ∧
     (diffRows [['x']] [['x'], ['y']]).filterMap Prod.snd = [['x'], ['y']]) :=
  ⟨(diff_partition_balanced [['x']] [['x'], ['y']]).1,
   (diff_partition_balanced [['x']] [['x'], ['y']]).2 (by decide)⟩

/-- C1 counterexample: for `A = ["a"]`, `B = ["b", "c"]` the differ emits one
replace opcode spanning one old line and two new lines; the flattened rows
pair only the overlapping prefix, so the new-side surplus line `"c"` is
dropped and the new-side concatenation does not reproduce `B`. -/
theorem diff_rows_drop_surplus_cex :
    get_opcodes [['a']] [['b'], ['c']] = [⟨Tag.replace, 0, 1, 0, 2⟩] ∧
    (diffRows [['a']] [['b'], ['c']]).filterMap Prod.snd ≠ [['b'], ['c']] := by
  decide

/-!
The differ on two identical sequences: the scan's best match stays on the
diagonal and ends as the full-length match.
-/

theorem flmFold_phase {f : Nat → Nat} {i B : Nat} :
    ∀ (js : List Nat) (st : (Nat → Nat) × (Nat × Nat × Nat)),
      (∀ j ∈ js, (if j = 0 then 1 else f (j - 1) + 1) ≤ st.2.2.2) →
      (∀ j ∈ js, (if j = 0 then 1 else f (j - 1) + 1) ≤ j + 1) →
      (∀ j ∈ js, (if j = 0 then 1 else f (j - 1) + 1) ≤ B) →
      (∀ j, st.1 j ≤ j + 1) → (∀ j, st.1 j ≤ B) →
      (js.foldl (flmStep f i) st).2 = st.2 ∧
      (∀ j, (js.foldl (flmStep f i) st).1 j ≤ j + 1) ∧
      (∀ j, (js.foldl (flmStep f i) st).1 j ≤ B) ∧
      (∀ x, x ∉ js → (js.foldl (flmStep f i) st).1 x = st.1 x) := by
  intro js
  induction js with
  | nil => intro st _ _ _ hg1 hg2; exact ⟨rfl, hg1, hg2, fun _ _ => rfl⟩
  | cons j t ih =>
    intro st hno hk1 hkB hg1 hg2
    simp only [List.foldl_cons]
    have hsnd : (flmStep f i st j).2 = st.2 := by
      rw [flmStep_snd]
      rw [if_neg (by have := hno j (by simp); omega)]
    have hres := ih (flmStep f i st j)
      (fun j' hj' => by rw [hsnd]; exact hno j' (by simp [hj']))
      (fun j' hj' => hk1 j' (by simp [hj'])) (fun j' hj' => hkB j' (by simp [hj']))
      (fun x => by
        rw [flmStep_fst]
        by_cases hx : x = j
        · rw [if_pos hx]; subst hx; exact hk1 x (by simp)
        · rw [if_neg hx]; exact hg1 x)
      (fun x => by
        rw [flmStep_fst]
        by_cases hx : x = j
        · rw [if_pos hx]; subst hx; exact hkB x (by simp)
        · rw [if_neg hx]; exact hg2 x)
    refine ⟨hres.1.trans hsnd, hres.2.1, hres.2.2.1, fun x hx => ?_⟩
    rw [hres.2.2.2 x (fun hmem => hx (by simp [hmem])), flmStep_fst,
      if_neg (fun hxe => hx (by simp [hxe]))]

theorem flmRow_diag {a : List PyStr} {t : Nat} (ht : t < a.length) {f : Nat → Nat}
    (h1 : ∀ j, f j ≤ j + 1) (h2 : ∀ j, f j ≤ t) (h3 : 1 ≤ t → f (t - 1) = t) :
    (flmRow a 0 a.length (a.getD t []) t f (0, 0, t)).2 = (0, 0, t + 1) ∧
    (∀ j, (flmRow a 0 a.length (a.getD t []) t f (0, 0, t)).1 j ≤ j + 1) ∧
    (∀ j, (flmRow a 0 a.length (a.getD t []) t f (0, 0, t)).1 j ≤ t + 1) ∧
    (flmRow a 0 a.length (a.getD t []) t f (0, 0, t)).1 t = t + 1 := by
  have hkd : ∀ j : Nat, (if j = 0 then 1 else f (j - 1) + 1) ≤ j + 1 := by
    intro j
    split
    · omega
    · have := h1 (j - 1); omega
  have hkt : ∀ j : Nat, (if j = 0 then 1 else f (j - 1) + 1) ≤ t + 1 := by
    intro j
    split
    · omega
    · have := h2 (j - 1); omega
  have hdiag : (if t = 0 then 1 else f (t - 1) + 1) = t + 1 := by
    split
    · omega
    · rw [h3 (by omega)]
  unfold flmRow
  set p : Nat → Bool := fun j => decide (0 ≤ j ∧ a.getD j [] = a.getD t []) with hp
  have hpt : p t = true := by simp [hp]
  have hdecomp : List.range a.length =
      List.range t ++ t :: List.range' (t + 1) (a.length - (t + 1)) := by
    rw [List.range_eq_range']
    have h4 : List.range' 0 t ++ List.range' t (a.length - t) = List.range' 0 a.length := by
      have h5 := List.range'_append 0 t (a.length - t) 1
      simp only [Nat.one_mul, Nat.zero_add] at h5
      rw [h5]
      congr 1
      omega
    rw [← h4, List.range_eq_range']
    congr 1
    have h6 : a.length - t = (a.length - (t + 1)) + 1 := by omega
    rw [h6, List.range'_succ]
  rw [hdecomp, List.filter_append, List.filter_cons, hpt]
  simp only [if_pos]
  rw [List.foldl_append]
  have hphaseA := flmFold_phase (f := f) (i := t) (B := t + 1)
    ((List.range t).filter p) ((fun _ => 0), (0, 0, t))
    (fun j hj => by
      have hjt : j < t := List.mem_range.1 (List.mem_filter.1 hj).1
      show (if j = 0 then 1 else f (j - 1) + 1) ≤ t
      split
      · omega
      · have := h1 (j - 1); omega)
    (fun j _ => hkd j) (fun j _ => hkt j) (fun j => by show (0:Nat) ≤ j + 1; omega)
    (fun j => by show (0:Nat) ≤ t + 1; omega)
  set stA := ((List.range t).filter p).foldl (flmStep f t) ((fun _ => 0), (0, 0, t))
    with hstA
  have hA2 : stA.2.2.2 = t := by rw [hphaseA.1]
  simp only [List.foldl_cons]
  have hB2 : (flmStep f t stA t).2 = (0, 0, t + 1) := by
    rw [flmStep_snd, hA2, hdiag, if_pos (by omega)]
    simp
  have hB1 : ∀ x, (flmStep f t stA t).1 x =
      if x = t then (if t = 0 then 1 else f (t - 1) + 1) else stA.1 x :=
    fun x => flmStep_fst f t stA t x
  have hphaseC := flmFold_phase (f := f) (i := t) (B := t + 1)
    ((List.range' (t + 1) (a.length - (t + 1))).filter p) (flmStep f t stA t)
    (fun j hj => by rw [hB2]; exact hkt j)
    (fun j _ => hkd j) (fun j _ => hkt j)
    (fun x => by
      rw [hB1]
      by_cases hx : x = t
      · rw [if_pos hx, hdiag]; omega
      · rw [if_neg hx]; exact hphaseA.2.1 x)
    (fun x => by
      rw [hB1]
      by_cases hx : x = t
      · rw [if_pos hx, hdiag]
      · rw [if_neg hx]; exact hphaseA.2.2.1 x)
  refine ⟨hphaseC.1.trans hB2, hphaseC.2.1, hphaseC.2.2.1, ?_⟩
  rw [hphaseC.2.2.2 t (fun hmem => by
    have := List.mem_range'_1.1 (List.mem_filter.1 hmem).1
    omega)]
  rw [hB1 t, if_pos rfl, hdiag]

theorem flm_diag_rows {a : List PyStr} :
    ∀ t, t ≤ a.length →
      ((List.range' 0 t).foldl
        (fun st i => flmRow a 0 a.length (a.getD i []) i st.1 st.2)
        ((fun _ => 0), (0, 0, 0))).2 = (0, 0, t) ∧
      (∀ j, ((List.range' 0 t).foldl
        (fun st i => flmRow a 0 a.length (a.getD i []) i st.1 st.2)
        ((fun _ => 0), (0, 0, 0))).1 j ≤ j + 1) ∧
      (∀ j, ((List.range' 0 t).foldl
        (fun st i => flmRow a 0 a.length (a.getD i []) i st.1 st.2)
        ((fun _ => 0), (0, 0, 0))).1 j ≤ t) ∧
      (1 ≤ t → ((List.range' 0 t).foldl
        (fun st i => flmRow a 0 a.length (a.getD i []) i st.1 st.2)
        ((fun _ => 0), (0, 0, 0))).1 (t - 1) = t) := by
  intro t
  induction t with
  | zero =>
    intro _
    exact ⟨rfl, fun j => by show (0:Nat) ≤ j + 1; omega,
      fun j => le_rfl, fun h => by omega⟩
  | succ t ih =>
    intro ht
    have hprev := ih (by omega)
    have hsplit : List.range' 0 (t + 1) = List.range' 0 t ++ [t] := by
      have h5 := List.range'_append 0 t 1 1
      simp only [Nat.one_mul, Nat.zero_add] at h5
      rw [Nat.add_comm t 1, ← h5]
      congr 1
    rw [hsplit, List.foldl_append]
    simp only [List.foldl_cons, List.foldl_nil]
    set stT := (List.range' 0 t).foldl
      (fun st i => flmRow a 0 a.length (a.getD i []) i st.1 st.2)
      ((fun _ => 0), (0, 0, 0)) with hstT
    have hrowpre : flmRow a 0 a.length (a.getD t []) t stT.1 stT.2 =
        flmRow a 0 a.length (a.getD t []) t stT.1 (0, 0, t) := by
      rw [hprev.1]
    have hrow := flmRow_diag (a := a) (t := t) (by omega) hprev.2.1
      (fun j => hprev.2.2.1 j)
      (fun h => hprev.2.2.2 h)
    rw [hrowpre]
    exact ⟨hrow.1, hrow.2.1, hrow.2.2.1, fun _ => by
      simpa using hrow.2.2.2⟩

theorem find_longest_match_self (a : List PyStr) :
    find_longest_match a a 0 a.length 0 a.length = (0, 0, a.length) := by
  unfold find_longest_match
  have h := (flm_diag_rows (a := a) a.length le_rfl).1
  simpa using h

theorem flm_empty_rows (a b : List PyStr) (alo blo bhi : Nat) :
    find_longest_match a b alo alo blo bhi = (alo, blo, 0) := by
  unfold find_longest_match
  simp [List.range']

theorem mbF_empty_rows (fuel : Nat) (a b : List PyStr) (alo blo bhi : Nat) :
    mbF a b fuel alo alo blo bhi = [] := by
  cases fuel with
  | zero => rfl
  | succ fuel => simp [mbF, flm_empty_rows]

theorem flmRow_bhi_zero (b : List PyStr) (blo : Nat) (x : PyStr) (i : Nat)
    (f : Nat → Nat) (best : Nat × Nat × Nat) :
    flmRow b blo 0 x i f best = ((fun _ => 0), best) := rfl

theorem flm_bhi_zero (a b : List PyStr) (alo ahi blo : Nat) :
    find_longest_match a b alo ahi blo 0 = (alo, blo, 0) := by
  unfold find_longest_match
  have h : ∀ (l : List Nat) (st : (Nat → Nat) × (Nat × Nat × Nat)),
      (l.foldl (fun st i => flmRow b blo 0 (a.getD i []) i st.1 st.2) st).2 = st.2 := by
    intro l
    induction l with
    | nil => intro st; rfl
    | cons x t ih =>
      intro st
      simp only [List.foldl_cons]
      rw [ih, flmRow_bhi_zero]
  rw [h]

theorem mbF_bhi_zero (fuel : Nat) (a b : List PyStr) (alo ahi blo : Nat) :
    mbF a b fuel alo ahi blo 0 = [] := by
  cases fuel with
  | zero => rfl
  | succ fuel => simp [mbF, flm_bhi_zero]

theorem get_matching_blocks_self {a : List PyStr} (h : a ≠ []) :
    get_matching_blocks a a = [(0, 0, a.length)] := by
  have hn : a.length ≠ 0 := by simpa using fun he => h (List.length_eq_zero.1 he)
  unfold get_matching_blocks
  simp only [mbF]
  rw [find_longest_match_self]
  rw [if_neg (by simpa using hn)]
  simp only [Nat.zero_add]
  rw [mbF_empty_rows, mbF_empty_rows]
  rfl

theorem get_opcodes_self {a : List PyStr} (h : a ≠ []) :
    get_opcodes a a = [⟨Tag.equal, 0, a.length, 0, a.length⟩] := by
  have hn : 1 ≤ a.length := by
    have : a.length ≠ 0 := fun he => h (List.length_eq_zero.1 he)
    omega
  unfold get_opcodes
  rw [get_matching_blocks_self h]
  simp only [List.cons_append, List.nil_append, opcodesWalk]
  rw [if_neg (by omega : ¬ ((0:Nat) < 0 ∧ (0:Nat) < 0)), if_neg (by omega : ¬ (0:Nat) < 0),
    if_neg (by omega : ¬ (0:Nat) < 0), if_pos hn]
  simp only [Nat.zero_add]
  rw [if_neg (by omega : ¬ (a.length < a.length ∧ a.length < a.length)),
    if_neg (by omega : ¬ a.length < a.length), if_neg (by omega : ¬ a.length < a.length),
    if_neg (by omega : ¬ (1:Nat) ≤ 0)]
  rfl

theorem diffRows_self {a : List PyStr} (h : a ≠ []) :
    diffRows a a = a.map (fun l => (some l, some l)) := by
  unfold diffRows
  rw [get_opcodes_self h]
  simp only [List.flatMap_cons, List.flatMap_nil, List.append_nil, opRows]
  simp only [Nat.sub_zero, Nat.zero_add]
  rw [show (fun i => ((some (a.getD i []) : Option PyStr), (some (a.getD i []) : Option PyStr)))
      = (fun l => ((some l : Option PyStr), (some l : Option PyStr))) ∘ (fun t => a.getD t [])
    from rfl]
  rw [← List.map_map, range'_map_getD a [] a.length 0 (by omega), List.drop_zero,
    List.take_length]

theorem get_opcodes_nil_left {b : List PyStr} (h : b ≠ []) :
    get_opcodes [] b = [⟨Tag.insert, 0, 0, 0, b.length⟩] := by
  have hn : 1 ≤ b.length := by
    have : b.length ≠ 0 := fun he => h (List.length_eq_zero.1 he)
    omega
  unfold get_opcodes get_matching_blocks
  simp only [List.length_nil]
  rw [mbF_empty_rows]
  simp only [List.nil_append, opcodesWalk]
  rw [if_neg (by omega : ¬ ((0:Nat) < 0 ∧ 0 < b.length)), if_neg (by omega : ¬ (0:Nat) < 0),
    if_pos (by omega : (0:Nat) < b.length), if_neg (by omega : ¬ (1:Nat) ≤ 0)]
  rfl

theorem get_opcodes_nil_right {a : List PyStr} (h : a ≠ []) :
    get_opcodes a [] = [⟨Tag.delete, 0, a.length, 0, 0⟩] := by
  have hn : 1 ≤ a.length := by
    have : a.length ≠ 0 := fun he => h (List.length_eq_zero.1 he)
    omega
  unfold get_opcodes get_matching_blocks
  simp only [List.length_nil]
  rw [mbF_bhi_zero]
  simp only [List.nil_append, opcodesWalk]
  rw [if_neg (by omega : ¬ ((0:Nat) < a.length ∧ (0:Nat) < 0)),
    if_pos (by omega : (0:Nat) < a.length), if_neg (by omega : ¬ (1:Nat) ≤ 0)]
  rfl

theorem diffRows_nil_left {b : List PyStr} (h : b ≠ []) :
    diffRows [] b = b.map (fun l => ((none : Option PyStr), some l)) := by
  unfold diffRows
  rw [get_opcodes_nil_left h]
  simp only [List.flatMap_cons, List.flatMap_nil, List.append_nil, opRows]
  simp only [Nat.sub_zero]
  rw [show (fun j => ((none : Option PyStr), (some (b.getD j []) : Option PyStr)))
      = (fun l => ((none : Option PyStr), (some l : Option PyStr))) ∘ (fun t => b.getD t [])
    from rfl]
  rw [← List.map_map, range'_map_getD b [] b.length 0 (by omega), List.drop_zero,
    List.take_length]

theorem diffRows_nil_right {a : List PyStr} (h : a ≠ []) :
    diffRows a [] = a.map (fun l => (some l, (none : Option PyStr))) := by
  unfold diffRows
  rw [get_opcodes_nil_right h]
  simp only [List.flatMap_cons, List.flatMap_nil, List.append_nil, opRows]
  simp only [Nat.sub_zero]
  rw [show (fun i => ((some (a.getD i []) : Option PyStr), (none : Option PyStr)))
      = (fun l => ((some l : Option PyStr), (none : Option PyStr))) ∘ (fun t => a.getD t [])
    from rfl]
  rw [← List.map_map, range'_map_getD a [] a.length 0 (by omega), List.drop_zero,
    List.take_length]

/-- C7 (amended): for every non-empty line sequence `A`, `diff(A, A)` yields
exactly one Equal opcode covering all of `A`, and the flattened rows pair
every line of `A` with itself.  (As stated over every `A` the claim fails at
`A = []`, where the differ yields no opcodes at all — see the
counterexample.) -/
theorem diff_self_single_equal (a : List PyStr) (h : a ≠ []) :
    get_opcodes a a = [⟨Tag.equal, 0, a.length, 0, a.length⟩] ∧
    diffRows a a = a.map (fun l => (some l, some l)) :=
  ⟨get_opcodes_self h, diffRows_self h⟩

/-- C7 witness: the theorem applied to `A = ["p", "q"]`. -/
theorem diff_self_single_equal_witness :
    get_opcodes [['p'], ['q']] [['p'], ['q']] = [⟨Tag.equal, 0, 2, 0, 2⟩] ∧
    diffRows [['p'], ['q']] [['p'], ['q']] =
      [(some ['p'], some ['p']), (some ['q'], some ['q'])] :=
  diff_self_single_equal [['p'], ['q']] (by decide)

/-- C7 counterexample: at `A = []` the differ yields no opcodes, not exactly
one Equal block. -/
theorem diff_self_empty_cex :
    get_opcodes ([] : List PyStr) [] = [] ∧
    (get_opcodes ([] : List PyStr) []).length ≠ 1 := by
  decide

/-- C8: for every non-empty `B`, `diff([], B)` yields exactly one Insert
opcode covering all of `B` and every flattened row has an empty old side;
symmetrically, for every non-empty `A`, `diff(A, [])` yields exactly one
Delete opcode covering all of `A` and every row has an empty new side. -/
theorem diff_empty_sides :
    (∀ b : List PyStr, b ≠ [] →
      get_opcodes [] b = [⟨Tag.insert, 0, 0, 0, b.length⟩] ∧
      diffRows [] b = b.map (fun l => ((none : Option PyStr), some l))) ∧
    (∀ a : List PyStr, a ≠ [] →
      get_opcodes a [] = [⟨Tag.delete, 0, a.length, 0, 0⟩] ∧
      diffRows a [] = a.map (fun l => (some l, (none : Option PyStr)))) :=
  ⟨fun _ hb => ⟨get_opcodes_nil_left hb, diffRows_nil_left hb⟩,
   fun _ ha => ⟨get_opcodes_nil_right ha, diffRows_nil_right ha⟩⟩

/-- C8 witness: the theorem applied to `B = ["u", "v"]` and `A = ["w"]`. -/
theorem diff_empty_sides_witness :
    (get_opcodes [] [['u'], ['v']] = [⟨Tag.insert, 0, 0, 0, 2⟩] ∧
     diffRows [] [['u'], ['v']] = [(none, some ['u']), (none, some ['v'])]) ∧
    (get_opcodes [['w']] [] = [⟨Tag.delete, 0, 1, 0, 0⟩] ∧
     diffRows [['w']] [] = [(some ['w'], none)]) :=
  ⟨diff_empty_sides.1 [['u'], ['v']] (by decide),
   diff_empty_sides.2 [['w']] (by decide)⟩

/-!
The analyzers' batch loop: results of the readable files, one printed
diagnostic per unreadable file, no exception ever escapes.
-/

theorem runBatch_go {ρ : Type} (step : String → PyStr → List ρ) (fs : FileSys) :
    ∀ (files : List String) (acc : List ρ × List String),
      files.foldl
        (fun acc f =>
          match readFile fs f with
          | Except.ok c => (acc.1 ++ step f c, acc.2)
          | Except.error e => (acc.1, acc.2 ++ [analyzeErrMsg f e]))
        acc =
      (acc.1 ++ files.flatMap (fun f =>
          match readFile fs f with
          | Except.ok c => step f c
          | Except.error _ => []),
       acc.2 ++ files.filterMap (fun f =>
          match readFile fs f with
          | Except.ok _ => none
          | Except.error e => some (analyzeErrMsg f e))) := by
  intro files
  induction files with
  | nil => intro acc; simp
  | cons f t ih =>
    intro acc
    simp only [List.foldl_cons, List.flatMap_cons, List.filterMap_cons]
    cases hrf : readFile fs f with
    | ok c => simp [hrf, ih, List.append_assoc]
    | error e => simp [hrf, ih, List.append_assoc]

theorem runBatch_eq {ρ : Type} (step : String → PyStr → List ρ) (fs : FileSys)
    (files : List String) :
    runBatch step fs files =
      (files.flatMap (fun f =>
          match readFile fs f with
          | Except.ok c => step f c
          | Except.error _ => []),
       files.filterMap (fun f =>
          match readFile fs f with
          | Except.ok _ => none
          | Except.error e => some (analyzeErrMsg f e))) := by
  unfold runBatch
  rw [runBatch_go]
  simp

theorem find_duplicates_run_split (n : Int) :
    ∀ (files : List (String × Except String PyStr))
      (m : List (PyStr × List (String × Nat))) (msgs : List String),
      files.foldl
        (fun (st : List (PyStr × List (String × Nat)) × List String) e =>
          match e.2 with
          | Except.error err => (st.1, st.2 ++ [dupErrMsg e.1 err])
          | Except.ok content =>
            let lines := splitNl content
            ((List.range (((lines.length : Int) - n + 1).toNat)).foldl
              (fun m i =>
                let fragment := joinNl (pySliceTo lines i ((i : Int) + n))
                if !(pyStrip fragment).isEmpty then dictAppend m fragment (e.1, i + 1)
                else m)
              st.1,
             st.2))
        (m, msgs)
      = (files.foldl
          (fun m e =>
            match e.2 with
            | Except.error _ => m
            | Except.ok content =>
              let lines := splitNl content
              (List.range (((lines.length : Int) - n + 1).toNat)).foldl
                (fun m i =>
                  let fragment := joinNl (pySliceTo lines i ((i : Int) + n))
                  if !(pyStrip fragment).isEmpty then dictAppend m fragment (e.1, i + 1)
                  else m)
                m)
          m,
         msgs ++ files.filterMap (fun e =>
           match e.2 with
           | Except.ok _ => none
           | Except.error err => some (dupErrMsg e.1 err))) := by
  intro files
  induction files with
  | nil =>
    intro m msgs
    simp
  | cons e t ih =>
    intro m msgs
    obtain ⟨f, fc⟩ := e
    simp only [List.foldl_cons, List.filterMap_cons]
    cases fc with
    | error err =>
      refine (ih m (msgs ++ [dupErrMsg f err])).trans ?_
      rw [List.append_assoc]
      rfl
    | ok c =>
      exact ih _ msgs

theorem find_duplicates_run_eq (files : List (String × Except String PyStr)) (n : Int) :
    find_duplicates_run files n
      = (find_duplicates files n,
         files.filterMap (fun e =>
           match e.2 with
           | Except.ok _ => none
           | Except.error err => some (dupErrMsg e.1 err))) := by
  simp only [find_duplicates_run, find_duplicates]
  rw [find_duplicates_run_split]
  rfl

/-- C6 (amended): for every file system and tracked file set, a batch run of
each of the three analyzers returns exactly the findings of the readable
code files, in order, and produces one printed diagnostic per unreadable
code file; likewise the duplicate scanner never raises, returns exactly the
groups built from the readable files, and prints one diagnostic per
unreadable file.  In every case the returned findings carry no (file, error)
entries — the diagnostics exist only as printed output — and no exception
escapes (the functions are total). -/
theorem batch_results_and_diagnostics (fs : FileSys) (tracked : List String)
    (files : List (String × Except String PyStr)) (n : Int) :
    analyze_complexity fs tracked none =
      ((codeFiles tracked).flatMap (fun f =>
          match readFile fs f with
          | Except.ok c => complexityStep f c
          | Except.error _ => []),
       (codeFiles tracked).filterMap (fun f =>
          match readFile fs f with
          | Except.ok _ => none
          | Except.error e => some (analyzeErrMsg f e))) ∧
    analyze_security fs tracked none =
      ((codeFiles tracked).flatMap (fun f =>
          match readFile fs f with
          | Except.ok c => securityStep f c
          | Except.error _ => []),
       (codeFiles tracked).filterMap (fun f =>
          match readFile fs f with
          | Except.ok _ => none
          | Except.error e => some (analyzeErrMsg f e))) ∧
    analyze_performance fs tracked none =
      ((codeFiles tracked).flatMap (fun f =>
          match readFile fs f with
          | Except.ok c => performanceStep f c
          | Except.error _ => []),
       (codeFiles tracked).filterMap (fun f =>
          match readFile fs f with
          | Except.ok _ => none
          | Except.error e => some (analyzeErrMsg f e))) ∧
    find_duplicates_run files n =
      (find_duplicates files n,
       files.filterMap (fun e =>
          match e.2 with
          | Except.ok _ => none
          | Except.error err => some (dupErrMsg e.1 err))) :=
  ⟨runBatch_eq complexityStep fs (codeFiles tracked),
   runBatch_eq securityStep fs (codeFiles tracked),
   runBatch_eq performanceStep fs (codeFiles tracked),
   find_duplicates_run_eq files n⟩

/-- C6 counterexample: a batch over one unreadable and one readable file
returns only the readable file's record; the returned value carries no
(file, error) entry for the unreadable file — its diagnostic is only
printed. -/
theorem analyzer_errors_not_returned_cex :
    analyze_complexity
        [("bad.py", Except.error "Permission denied"), ("good.py", Except.ok ['x'])]
        ["bad.py", "good.py"] none =
      ([⟨"good.py", 1, 0, 0⟩],
       ["Ошибка при анализе файла bad.py: Permission denied"]) ∧
    ((analyze_complexity
        [("bad.py", Except.error "Permission denied"), ("good.py", Except.ok ['x'])]
        ["bad.py", "good.py"] none).1.all (fun r => r.file != "bad.py")) = true := by
  decide

theorem runBatch_single {ρ : Type} (step : String → PyStr → List ρ) (fs : FileSys)
    {p : String} {c : PyStr} (h : readFile fs p = Except.ok c) :
    runBatch step fs [p] = (step p c, []) := by
  unfold runBatch
  simp [h]

/-- C10 (amended): for every non-empty explicit file path, each analyzer
scans exactly that one file — the extension allow-list is not applied, so a
readable file with any extension is analyzed.  (As stated over every path the
claim fails at the empty string, which Python's truthiness sends to the
default tracked-file branch — see the counterexample.) -/
theorem explicit_path_bypasses_filter (fs : FileSys) (tracked : List String)
    (p : String) (c : PyStr) (hp : p ≠ "") (hr : readFile fs p = Except.ok c) :
    analyze_complexity fs tracked (some p) = (complexityStep p c, []) ∧
    analyze_performance fs tracked (some p) = (performanceStep p c, []) ∧
    analyze_security fs tracked (some p) = (securityStep p c, []) := by
  unfold analyze_complexity analyze_performance analyze_security
  simp only [filesFor]
  rw [if_neg hp]
  exact ⟨runBatch_single _ _ hr, runBatch_single _ _ hr, runBatch_single _ _ hr⟩

/-- C10 witness: the readable file `notes.txt`, whose extension is not on the
allow-list, passed as an explicit path. -/
theorem explicit_path_bypasses_filter_witness :
    analyze_complexity [("notes.txt", Except.ok ['x'])] ["a.py"] (some "notes.txt")
      = (complexityStep "notes.txt" ['x'], []) ∧
    analyze_performance [("notes.txt", Except.ok ['x'])] ["a.py"] (some "notes.txt")
      = (performanceStep "notes.txt" ['x'], []) ∧
    analyze_security [("notes.txt", Except.ok ['x'])] ["a.py"] (some "notes.txt")
      = (securityStep "notes.txt" ['x'], []) :=
  explicit_path_bypasses_filter [("notes.txt", Except.ok ['x'])] ["a.py"]
    "notes.txt" ['x'] (by decide) rfl

/-- C10 counterexample: with the explicit path `""` the analyzer scans the
tracked code files, not the (readable) file named `""`: Python's
`if file_path` treats the empty string as absent. -/
theorem explicit_empty_path_cex :
    (analyze_complexity [("", Except.ok ['x']), ("a.py", Except.ok ['y'])]
      ["a.py", ""] (some "")).1.map (fun r => r.file) = ["a.py"] := by
  decide

/-!
The security analyzer: concrete pattern behaviour and the finding count.
-/

theorem filterMap_ite_length {α β : Type} (l : List α) (p : α → Bool) (g : α → β) :
    (l.filterMap (fun x => if p x then some (g x) else none)).length = l.countP p := by
  induction l with
  | nil => rfl
  | cons x t ih =>
    simp only [List.filterMap_cons, List.countP_cons]
    by_cases hx : p x = true
    · simp [hx, ih]
    · simp [hx, ih]

theorem securityStep_count (f : String) (c : PyStr) :
    (securityStep f c).length =
      ((splitNl c).map (fun line =>
        (securityPatterns.map
          (fun cp => cp.2.countP (fun pat => reSearch pat line))).sum)).sum := by
  unfold securityStep
  rw [List.length_flatMap]
  have hstep : ∀ p : Nat × PyStr,
      (List.length ∘ fun p : Nat × PyStr =>
        securityPatterns.flatMap fun cp =>
          List.filterMap
            (fun pat =>
              if reSearch pat p.2 = true then
                some (SecFinding.mk f (p.1 + 1) cp.1 (pyStrip p.2))
              else none)
            cp.2) p
      = (fun line => (securityPatterns.map
          (fun cp => cp.2.countP (fun pat => reSearch pat line))).sum) p.2 := by
    intro p
    simp only [Function.comp]
    rw [List.length_flatMap]
    congr 1
    exact List.map_congr_left (fun cp _ => filterMap_ite_length cp.2 _ _)
  rw [List.map_congr_left (fun p _ => hstep p)]
  congr 1
  rw [show (fun p : Nat × PyStr => (fun line => (securityPatterns.map
        (fun cp => cp.2.countP (fun pat => reSearch pat line))).sum) p.2)
      = (fun line => (securityPatterns.map
        (fun cp => cp.2.countP (fun pat => reSearch pat line))).sum) ∘ Prod.snd
    from rfl]
  rw [← List.map_map, List.enum_map_snd]

/-- C9: the security analyzer flags the line `password = "hunter2"` with
exactly one Hardcoded Credentials finding at line 1; the line
`SELECT * FROM users` (no quote-plus-quote concatenation) yields no finding;
a line matching two categories yields one finding per category in table
order; and in general the number of findings of a file equals the number of
(line, category, pattern) triples whose pattern matches the line. -/
theorem security_patterns_behavior :
    (∀ f : String, securityStep f ("password = \"hunter2\"".toList) =
      [⟨f, 1, "Hardcoded Credentials", "password = \"hunter2\"".toList⟩]) ∧
    (∀ f : String, securityStep f ("SELECT * FROM users".toList) = []) ∧
    (∀ f : String,
      (securityStep f ("eval(\"SELECT a FROM t WHERE x=\" + \"y\")".toList)).map
        (fun r => (r.line, r.issue_type)) =
      [(1, "SQL Injection"), (1, "Command Injection")]) ∧
    (∀ (f : String) (c : PyStr), (securityStep f c).length =
      ((splitNl c).map (fun line =>
        (securityPatterns.map
          (fun cp => cp.2.countP (fun pat => reSearch pat line))).sum)).sum) :=
  ⟨fun _ => rfl, fun _ => rfl, fun _ => rfl, securityStep_count⟩

/-!
The performance analyzer's recursion heuristic: substring machinery.
-/

theorem splitFirst_append (sep : PyStr) :
    ∀ (s b r : PyStr), splitFirst sep s = some (b, r) → b ++ sep ++ r = s := by
  intro s
  induction s with
  | nil =>
    intro b r h
    simp only [splitFirst] at h
    by_cases he : sep.isEmpty
    · rw [if_pos he] at h
      obtain ⟨rfl, rfl⟩ : b = [] ∧ r = [] := by
        constructor <;> · injection h with h1; cases h1; rfl
      simp [List.isEmpty_iff.1 he]
    · rw [if_neg he] at h
      exact absurd h (by simp)
  | cons c t ih =>
    intro b r h
    simp only [splitFirst] at h
    by_cases hp : sep.isPrefixOf (c :: t)
    · rw [if_pos hp] at h
      obtain ⟨u, hu⟩ := List.isPrefixOf_iff_prefix.1 hp
      obtain ⟨rfl, rfl⟩ : b = [] ∧ r = (c :: t).drop sep.length := by
        constructor <;> · injection h with h1; cases h1; rfl
      rw [← hu, List.drop_left, List.nil_append]
    · rw [if_neg hp] at h
      cases hsf : splitFirst sep t with
      | none => rw [hsf] at h; exact absurd h (by simp)
      | some pr =>
        obtain ⟨b2, r2⟩ := pr
        rw [hsf] at h
        injection h with h1
        injection h1 with h2 h3
        subst h2
        subst h3
        have hres := ih _ _ hsf
        simp only [List.cons_append]
        rw [List.append_assoc] at hres ⊢
        rw [hres]

theorem pyIn_of_isSub {pat s : PyStr} (h : pat <:+: s) : pyIn pat s = true := by
  unfold pyIn
  induction s with
  | nil =>
    rw [List.infix_nil.1 h]
    rfl
  | cons c t ih =>
    rcases List.infix_cons_iff.1 h with hpre | hinf
    · simp only [splitFirst]
      rw [if_pos (List.isPrefixOf_iff_prefix.2 hpre)]
      rfl
    · simp only [splitFirst]
      by_cases hp : pat.isPrefixOf (c :: t)
      · rw [if_pos hp]; rfl
      · rw [if_neg hp]
        have hsome := ih hinf
        cases hsf : splitFirst pat t with
        | none => rw [hsf] at hsome; exact absurd hsome (by simp)
        | some pr =>
          obtain ⟨b2, r2⟩ := pr
          rfl

theorem pyStrip_isSub (s : PyStr) : pyStrip s <:+: s := by
  unfold pyStrip
  have h1 : s.dropWhile isPyWs <:+ s := List.dropWhile_suffix _
  have h2 : (s.dropWhile isPyWs).reverse.dropWhile isPyWs <:+
      (s.dropWhile isPyWs).reverse := List.dropWhile_suffix _
  have h4 := List.reverse_prefix.2 h2
  rw [List.reverse_reverse] at h4
  exact h4.isInfix.trans h1.isInfix

theorem defName_isSub (line : PyStr) : defName line <:+: line := by
  unfold defName
  cases hsf : splitFirst ("def ".toList) line with
  | none => exact List.nil_infix
  | some pr =>
    obtain ⟨b, r⟩ := pr
    show pyStrip ((match splitFirst ("def ".toList) r with
      | none => r
      | some pr2 => pr2.1).takeWhile (fun c => c != '(')) <:+: line
    have h1 : b ++ "def ".toList ++ r = line := splitFirst_append _ line b r hsf
    have hr : r <:+: line := by
      rw [← h1]
      exact (List.suffix_append (b ++ "def ".toList) r).isInfix
    have hc : (match splitFirst ("def ".toList) r with
        | none => r
        | some pr2 => pr2.1) <:+: r := by
      cases hsf2 : splitFirst ("def ".toList) r with
      | none => exact List.infix_rfl
      | some pr2 =>
        obtain ⟨b2, r2⟩ := pr2
        show b2 <:+: r
        have h2 : b2 ++ "def ".toList ++ r2 = r := splitFirst_append _ r b2 r2 hsf2
        have hb2 : b2 <+: r := by
          rw [← h2, List.append_assoc]
          exact List.prefix_append b2 _
        exact hb2.isInfix
    refine ((pyStrip_isSub _).trans ?_).trans hr
    exact (List.takeWhile_prefix _).isInfix.trans hc

theorem splitNl_cons (c : Char) (t : PyStr) :
    splitNl (c :: t) = match splitNl t with
      | [] => [[c]]
      | cur :: rest => if c = '\n' then [] :: cur :: rest else (c :: cur) :: rest := rfl

theorem splitNl_struct : ∀ s : PyStr, ∃ cur rest, splitNl s = cur :: rest ∧
    cur <+: s ∧ ∀ l ∈ rest, l <:+: s := by
  intro s
  induction s with
  | nil => exact ⟨[], [], rfl, List.nil_prefix, by simp⟩
  | cons c t ih =>
    obtain ⟨cur, rest, heq, hpre, hrest⟩ := ih
    by_cases hc : c = '\n'
    · refine ⟨[], cur :: rest, ?_, List.nil_prefix, ?_⟩
      · rw [splitNl_cons, heq]
        show (if c = '\n' then [] :: cur :: rest else (c :: cur) :: rest) = [] :: cur :: rest
        rw [if_pos hc]
      · intro l hl
        rcases List.mem_cons.1 hl with rfl | h2
        · exact List.infix_cons hpre.isInfix
        · exact List.infix_cons (hrest l h2)
    · refine ⟨c :: cur, rest, ?_, ?_, fun l hl => List.infix_cons (hrest l hl)⟩
      · rw [splitNl_cons, heq]
        show (if c = '\n' then [] :: cur :: rest else (c :: cur) :: rest) = (c :: cur) :: rest
        rw [if_neg hc]
      · obtain ⟨u, hu⟩ := hpre
        exact ⟨u, by rw [List.cons_append, hu]⟩

theorem splitNl_isSub {s l : PyStr} (h : l ∈ splitNl s) : l <:+: s := by
  obtain ⟨cur, rest, heq, hpre, hrest⟩ := splitNl_struct s
  rw [heq] at h
  rcases List.mem_cons.1 h with rfl | h2
  · exact hpre.isInfix
  · exact hrest l h2

/-- C5 (amended): the performance analyzer's recursion count equals the
number of lines containing `def `: the extracted function name is always a
substring of its own definition line, hence of the whole file content, so the
`func_name in content` check never fails.  (As stated the claim is false: a
function whose name occurs only in its own definition line is still counted
— see the counterexample.) -/
theorem recursion_counts_def_lines (f : String) (c : PyStr) :
    (performanceStep f c).map (fun r => r.recursion) =
      [((splitNl c).filter (fun l => pyIn ("def ".toList) l)).length] := by
  unfold performanceStep
  simp only [List.map_cons, List.map_nil]
  congr 2
  refine List.filter_congr (fun l hl => ?_)
  by_cases hdef : pyIn ("def ".toList) l = true
  · have hin : pyIn (defName l) c = true :=
      pyIn_of_isSub ((defName_isSub l).trans (splitNl_isSub hl))
    rw [hdef, hin]
    rfl
  · rw [Bool.not_eq_true] at hdef
    rw [hdef]
    rfl

/-- C5 counterexample: in a file that defines `foo` once and never mentions
it again, the source's recursion count is 1 (the name occurs in its own
definition line), while the count described by the claim — names reappearing
somewhere other than their own definition line — is 0. -/
theorem recursion_own_line_cex :
    (performanceStep "x.py" ("def foo():\n    return 1".toList)).map
        (fun r => r.recursion) = [1] ∧
    claimRecursion ("def foo():\n    return 1".toList) = 0 := by
  decide

/-!
The duplicate scanner: the dictionary fold equals the declarative map.
-/

theorem pySliceTo_nonneg {α : Type} (l : List α) (i : Nat) (n : Int) (hn : 0 ≤ n) :
    pySliceTo l i ((i : Int) + n) = (l.drop i).take n.toNat := by
  simp only [pySliceTo]
  rw [if_neg (by omega)]
  by_cases h : (i : Int) + n ≤ (l.length : Int)
  · rw [min_eq_left h]
    congr 1
    omega
  · rw [min_eq_right (by omega)]
    rw [List.take_of_length_le (by simp only [List.length_drop]; omega),
      List.take_of_length_le (by simp only [List.length_drop]; omega)]

theorem dedupFirst_mem {α : Type} [DecidableEq α] {k : α} :
    ∀ {l : List α}, k ∈ dedupFirst l ↔ k ∈ l := by
  intro l
  induction l with
  | nil => simp [dedupFirst]
  | cons x t ih =>
    simp only [dedupFirst, List.mem_cons, List.mem_filter, decide_eq_true_eq]
    constructor
    · rintro (rfl | ⟨h1, _⟩)
      · exact Or.inl rfl
      · exact Or.inr (ih.1 h1)
    · rintro (rfl | h2)
      · exact Or.inl rfl
      · by_cases hk : k = x
        · exact Or.inl hk
        · exact Or.inr ⟨ih.2 h2, hk⟩

theorem dedupFirst_nodup {α : Type} [DecidableEq α] : ∀ l : List α, (dedupFirst l).Nodup := by
  intro l
  induction l with
  | nil => simp [dedupFirst]
  | cons x t ih =>
    rw [show dedupFirst (x :: t) = x :: (dedupFirst t).filter (fun k' => k' ≠ x) from rfl,
      List.nodup_cons]
    constructor
    · intro hmem
      have := (List.mem_filter.1 hmem).2
      simp at this
    · exact ih.filter _

theorem dedupFirst_append_singleton {α : Type} [DecidableEq α] (x : α) :
    ∀ l : List α,
      dedupFirst (l ++ [x]) = if x ∈ l then dedupFirst l else dedupFirst l ++ [x] := by
  intro l
  induction l with
  | nil => simp [dedupFirst]
  | cons k t ih =>
    rw [List.cons_append,
      show dedupFirst (k :: (t ++ [x])) =
        k :: (dedupFirst (t ++ [x])).filter (fun k' => k' ≠ k) from rfl,
      show dedupFirst (k :: t) = k :: (dedupFirst t).filter (fun k' => k' ≠ k) from rfl, ih]
    by_cases hx : x ∈ t
    · rw [if_pos hx, if_pos (by simp [hx])]
    · rw [if_neg hx]
      by_cases hxk : x = k
      · rw [if_pos (by simp [hxk]), List.filter_append]
        simp [hxk]
      · rw [if_neg (by simp [hxk, hx]), List.filter_append]
        simp only [List.filter_cons, List.filter_nil, decide_eq_true_eq]
        rw [if_pos hxk]
        rfl

theorem filter_key_append (s : List (PyStr × (String × Nat)))
    (w : PyStr × (String × Nat)) (k : PyStr) :
    (s ++ [w]).filter (fun w' => w'.1 = k) =
      s.filter (fun w' => w'.1 = k) ++ (if w.1 = k then [w] else []) := by
  rw [List.filter_append]
  congr 1
  by_cases h : w.1 = k
  · simp [h]
  · simp [h]

theorem dictAppend_cons (e : PyStr × List (String × Nat))
    (t : List (PyStr × List (String × Nat))) (k : PyStr) (v : String × Nat) :
    dictAppend (e :: t) k v =
      if e.1 = k then (e.1, e.2 ++ [v]) :: t else e :: dictAppend t k v := rfl

theorem dictAppend_not_mem (k : PyStr) (v : String × Nat) :
    ∀ m : List (PyStr × List (String × Nat)), (∀ e ∈ m, e.1 ≠ k) →
      dictAppend m k v = m ++ [(k, [v])] := by
  intro m
  induction m with
  | nil => intro _; rfl
  | cons e t ih =>
    intro h
    rw [dictAppend_cons, if_neg (h e (by simp)), ih (fun e' he' => h e' (by simp [he']))]
    rfl

theorem dictAppend_mapped (s : List (PyStr × (String × Nat))) (w : PyStr × (String × Nat)) :
    ∀ keys : List PyStr, keys.Nodup → w.1 ∈ keys →
      dictAppend (keys.map (fun k => (k, (s.filter (fun w' => w'.1 = k)).map Prod.snd)))
          w.1 w.2
      = keys.map (fun k => (k, ((s ++ [w]).filter (fun w' => w'.1 = k)).map Prod.snd)) := by
  intro keys
  induction keys with
  | nil => intro _ h; simp at h
  | cons k ks ih =>
    intro hnd hmem
    have hnd2 := List.nodup_cons.1 hnd
    simp only [List.map_cons]
    by_cases hk : k = w.1
    · rw [dictAppend_cons, if_pos hk]
      congr 1
      · rw [filter_key_append, if_pos hk.symm, List.map_append]
        rfl
      · refine (List.map_congr_left (fun k' hk' => ?_)).symm
        have hne : ¬ w.1 = k' := fun h => hnd2.1 (by rw [hk, h]; exact hk')
        rw [filter_key_append, if_neg hne, List.append_nil]
    · rw [dictAppend_cons, if_neg hk]
      congr 1
      · rw [filter_key_append, if_neg (fun h : w.1 = k => hk h.symm), List.append_nil]
      · exact ih hnd2.2 (by
          rcases List.mem_cons.1 hmem with h | h
          · exact absurd h.symm hk
          · exact h)

theorem foldl_dictAppend_eq_dupMapOf :
    ∀ s : List (PyStr × (String × Nat)),
      s.foldl (fun m w => dictAppend m w.1 w.2) [] = dupMapOf s := by
  intro s
  induction s using List.reverseRecOn with
  | nil => rfl
  | append_singleton s w ih =>
    rw [List.foldl_append, ih]
    simp only [List.foldl_cons, List.foldl_nil]
    unfold dupMapOf
    rw [List.map_append]
    simp only [List.map_cons, List.map_nil]
    rw [dedupFirst_append_singleton]
    by_cases hmem : w.1 ∈ s.map Prod.fst
    · rw [if_pos hmem]
      exact dictAppend_mapped s w _ (dedupFirst_nodup _) (dedupFirst_mem.2 hmem)
    · rw [if_neg hmem]
      rw [dictAppend_not_mem _ _ _ (fun e he => by
        obtain ⟨k, hk, hke⟩ := List.mem_map.1 he
        rw [← hke]
        exact fun h => hmem (by rw [← h]; exact dedupFirst_mem.1 hk))]
      rw [List.map_append]
      congr 1
      · refine List.map_congr_left (fun k hk => ?_)
        have hne : ¬ w.1 = k := fun h => hmem (by rw [← h] at hk; exact dedupFirst_mem.1 hk)
        rw [filter_key_append, if_neg hne, List.append_nil]
      · simp only [List.map_cons, List.map_nil]
        rw [filter_key_append, if_pos rfl]
        rw [List.filter_eq_nil_iff.2 (fun a ha h => hmem (List.mem_map.2
          ⟨a, ha, of_decide_eq_true h⟩))]
        rfl

theorem window_fold (f : String) (c : PyStr) (n : Int) :
    ∀ (idx : List Nat) (m : List (PyStr × List (String × Nat))),
      idx.foldl
        (fun m i =>
          if !(pyStrip (joinNl (pySliceTo (splitNl c) i ((i : Int) + n)))).isEmpty then
            dictAppend m (joinNl (pySliceTo (splitNl c) i ((i : Int) + n))) (f, i + 1)
          else m) m
      = ((idx.map (fun i =>
            (joinNl (pySliceTo (splitNl c) i ((i : Int) + n)), (f, i + 1)))).filter
          (fun w => !(pyStrip w.1).isEmpty)).foldl (fun m w => dictAppend m w.1 w.2) m := by
  intro idx
  induction idx with
  | nil => intro m; rfl
  | cons i t ih =>
    intro m
    simp only [List.foldl_cons, List.map_cons, List.filter_cons]
    by_cases h :
        (!(pyStrip (joinNl (pySliceTo (splitNl c) i ((i : Int) + n)))).isEmpty) = true
    · rw [if_pos h, if_pos h]
      simp only [List.foldl_cons]
      exact ih _
    · rw [if_neg h, if_neg h]
      exact ih m

theorem files_fold_eq_scan_fold (n : Int) :
    ∀ (files : List (String × Except String PyStr))
      (m : List (PyStr × List (String × Nat))),
      files.foldl
        (fun m e =>
          match e.2 with
          | Except.error _ => m
          | Except.ok content =>
            let lines := splitNl content
            (List.range (((lines.length : Int) - n + 1).toNat)).foldl
              (fun m i =>
                let fragment := joinNl (pySliceTo lines i ((i : Int) + n))
                if !(pyStrip fragment).isEmpty then dictAppend m fragment (e.1, i + 1)
                else m)
              m)
        m
      = (scanOf files n).foldl (fun m w => dictAppend m w.1 w.2) m := by
  intro files
  induction files with
  | nil => intro m; rfl
  | cons e t ih =>
    intro m
    obtain ⟨f, fc⟩ := e
    simp only [List.foldl_cons]
    cases fc with
    | error err => exact ih m
    | ok c =>
      rw [ih]
      rw [show scanOf ((f, Except.ok c) :: t) n = windowsOf n f c ++ scanOf t n from rfl,
          List.foldl_append]
      refine congrArg
        (fun x => List.foldl (fun m w => dictAppend m w.1 w.2) x (scanOf t n)) ?_
      exact window_fold f c n _ m

theorem find_duplicates_via_map (files : List (String × Except String PyStr)) (n : Int) :
    find_duplicates files n =
      ((dupMapOf (scanOf files n)).filter (fun g => 1 < g.2.length)).map
        (fun g => ⟨g.1, g.2⟩) := by
  unfold find_duplicates
  rw [files_fold_eq_scan_fold, foldl_dictAppend_eq_dupMapOf]

theorem scanOf_eq_spec (n : Int) (hn : 0 ≤ n) :
    ∀ files : List (String × Except String PyStr), scanOf files n = dupScanSpec files n := by
  intro files
  induction files with
  | nil => rfl
  | cons e t ih =>
    obtain ⟨f, fc⟩ := e
    simp only [scanOf, dupScanSpec, List.flatMap_cons] at ih ⊢
    congr 1
    cases fc with
    | error err => rfl
    | ok c =>
      show ((List.range ((((splitNl c).length : Int) - n + 1).toNat)).map
            (fun i => (joinNl (pySliceTo (splitNl c) i ((i : Int) + n)), (f, i + 1)))).filter
            (fun w => !(pyStrip w.1).isEmpty)
          = ((List.range ((((splitNl c).length : Int) - n + 1).toNat)).map
            (fun i => (joinNl (((splitNl c).drop i).take n.toNat), (f, i + 1)))).filter
            (fun w => !(pyStrip w.1).isEmpty)
      congr 1
      refine List.map_congr_left (fun i _ => ?_)
      rw [pySliceTo_nonneg _ _ _ hn]

theorem map_filter_filterMap (keys : List PyStr) (occ : PyStr → List (String × Nat)) :
    ((keys.map (fun k => (k, occ k))).filter (fun g => 1 < g.2.length)).map
        (fun g => (⟨g.1, g.2⟩ : DupGroup))
      = keys.filterMap (fun k =>
          if 1 < (occ k).length then some ⟨k, occ k⟩ else none) := by
  induction keys with
  | nil => rfl
  | cons k t ih =>
    simp only [List.map_cons, List.filter_cons, List.filterMap_cons]
    by_cases h : 1 < (occ k).length
    · rw [if_pos (by simpa using h), if_pos h]
      simp only [List.map_cons]
      rw [ih]
    · rw [if_neg (by simpa using h), if_neg h]
      exact ih

/-- C2: for every file set and every minLength at least 1, `findDuplicates`
equals the spec's description — scan each readable file's windows at start
indices 0 to `len - minLength` inclusive, key each window by its minLength
lines joined with newline, skip keys that strip to nothing, record
`(file, i + 1)`, and return exactly the groups with at least two occurrences,
in first-occurrence order (deterministic for identical inputs) — and on a
file holding the same 5-line block at lines 1 and 10, `findDuplicates` with
minLength 5 returns exactly one group with occurrences at lines 1 and 10. -/
theorem find_duplicates_matches_spec :
    (∀ (files : List (String × Except String PyStr)) (n : Int), 1 ≤ n →
      find_duplicates files n = dupSpec files n) ∧
    find_duplicates
        [("dup.py", Except.ok ("a\nb\nc\nd\ne\nm\nn\no\np\na\nb\nc\nd\ne".toList))] 5
      = [⟨"a\nb\nc\nd\ne".toList, [("dup.py", 1), ("dup.py", 10)]⟩] := by
  constructor
  · intro files n hn
    rw [find_duplicates_via_map, scanOf_eq_spec n (by omega) files]
    unfold dupMapOf dupSpec
    exact map_filter_filterMap (dedupFirst ((dupScanSpec files n).map Prod.fst))
      (fun k => ((dupScanSpec files n).filter (fun w => w.1 = k)).map Prod.snd)
  · decide

/-- C2 witness: the specification equality applied at minLength 1 to a
two-line file. -/
theorem find_duplicates_matches_spec_witness :
    find_duplicates [("w.py", Except.ok ("x\nx".toList))] 1
      = dupSpec [("w.py", Except.ok ("x\nx".toList))] 1 :=
  find_duplicates_matches_spec.1 [("w.py", Except.ok ("x\nx".toList))] 1 (by omega)

theorem windowsOf_occ (n : Int) (f : String) (c : PyStr) (w : PyStr × (String × Nat))
    (hw : w ∈ windowsOf n f c) :
    w.2.1 = f ∧ n ≤ ((splitNl c).length : Int) := by
  simp only [windowsOf, List.mem_filter, List.mem_map, List.mem_range] at hw
  obtain ⟨⟨i, hi, rfl⟩, -⟩ := hw
  exact ⟨rfl, by omega⟩

theorem scanOf_occ (n : Int) (files : List (String × Except String PyStr))
    (w : PyStr × (String × Nat)) (hw : w ∈ scanOf files n) :
    ∃ c, (w.2.1, Except.ok c) ∈ files ∧ n ≤ ((splitNl c).length : Int) := by
  unfold scanOf at hw
  simp only [List.mem_flatMap] at hw
  obtain ⟨e, he, hwe⟩ := hw
  obtain ⟨f, fc⟩ := e
  cases fc with
  | error err => cases hwe
  | ok c =>
    obtain ⟨h1, h2⟩ := windowsOf_occ n f c w hwe
    refine ⟨c, ?_, h2⟩
    rw [h1]
    exact he

/-- C3: a file strictly shorter than `minLength` contributes no fragments, so
it appears in no duplicate group; the spec's boundary is off by one, since a
file whose line count equals `minLength` contributes exactly one window. -/
theorem dup_short_file_not_in_groups (files : List (String × Except String PyStr))
    (f : String) (n : Int)
    (hshort : ∀ c : PyStr, (f, Except.ok c) ∈ files → ((splitNl c).length : Int) < n) :
    (find_duplicates files n).all
      (fun g => g.occurrences.all (fun o => o.1 != f)) = true := by
  rw [find_duplicates_via_map, List.all_eq_true]
  intro g hg
  rw [List.all_eq_true]
  intro o ho
  obtain ⟨g0, hg0, rfl⟩ := List.mem_map.1 hg
  have hg0m := (List.mem_filter.1 hg0).1
  unfold dupMapOf at hg0m
  obtain ⟨k, hk, rfl⟩ := List.mem_map.1 hg0m
  obtain ⟨w, hwmem, rfl⟩ := List.mem_map.1 ho
  have hws := (List.mem_filter.1 hwmem).1
  obtain ⟨c, hc, hlen⟩ := scanOf_occ n files w hws
  have hne : w.2.1 ≠ f := by
    intro h
    rw [h] at hc
    exact absurd (hshort c hc) (by omega)
  simpa using hne

/-- C3 witness: a one-line file scanned with minLength 2 reaches no group. -/
theorem dup_short_file_not_in_groups_witness :
    (find_duplicates [("a.py", Except.ok (['x'] : PyStr))] 2).all
      (fun g => g.occurrences.all (fun o => o.1 != "a.py")) = true :=
  dup_short_file_not_in_groups [("a.py", Except.ok ['x'])] "a.py" 2
    (fun c hc => by
      simp only [List.mem_singleton, Prod.mk.injEq, Except.ok.injEq, true_and] at hc
      subst hc
      decide)

/-- C3 counterexample: the claim covers line count equal to minLength, but a
file with exactly `minLength` lines contributes one window — two identical
2-line files scanned with minLength 2 form a duplicate group naming both. -/
theorem dup_equal_length_cex :
    ((splitNl ("a\nb".toList)).length : Int) ≤ 2 ∧
    (find_duplicates
        [("p.py", Except.ok ("a\nb".toList)), ("q.py", Except.ok ("a\nb".toList))] 2).any
      (fun g => g.occurrences.any (fun o => o.1 == "p.py")) = true := by
  constructor
  · decide
  · decide

theorem windowsOf_zero (f : String) (c : PyStr) : windowsOf 0 f c = [] := by
  simp only [windowsOf]
  refine List.filter_eq_nil_iff.2 (fun w hw h => ?_)
  obtain ⟨i, hi, hww⟩ := List.mem_map.1 hw
  have hfrag : w.1 = [] := by
    rw [← hww]
    show joinNl (pySliceTo (splitNl c) i ((i : Int) + 0)) = []
    rw [pySliceTo_nonneg _ _ 0 le_rfl]
    rfl
  rw [hfrag] at h
  exact absurd h (by decide)

theorem scanOf_zero : ∀ files, scanOf files 0 = [] := by
  intro files
  induction files with
  | nil => rfl
  | cons e t ih =>
    obtain ⟨f, fc⟩ := e
    show (match fc with
          | Except.error _ => []
          | Except.ok c => windowsOf 0 f c) ++ scanOf t 0 = []
    cases fc with
    | error err => exact ih
    | ok c =>
      show windowsOf 0 f c ++ scanOf t 0 = []
      rw [windowsOf_zero, List.nil_append]
      exact ih

/-- C4: `findDuplicates` performs no validation of minLength — a call with
minLength below 1 is not rejected and proceeds to scan. With minLength 0
every window is empty and stripped away, so the scan returns the empty group
list by scanning, not by a validation failure. -/
theorem dup_zero_min_empty (files : List (String × Except String PyStr)) :
    find_duplicates files 0 = [] := by
  rw [find_duplicates_via_map, scanOf_zero]
  rfl

/-- C4 counterexample: minLength −1 is not rejected as a validation failure.
Python slicing maps a negative stop to the file end, so the scan produces a
real duplicate group: results are returned from an invalid minLength. -/
theorem dup_negative_min_cex :
    (-1 : Int) < 1 ∧
    find_duplicates
        [("a.py", Except.ok ("x\ny\nz".toList)), ("b.py", Except.ok ("x\ny\nz".toList))]
        (-1) ≠ [] := by
  constructor
  · decide
  · decide

end GitWizard

